import Mathlib

/-!
Verification of the memory-management and kernel-loading core of the
rusty-loader boot loader.

The development shallowly embeds three Rust modules:

* `src/arch/x86_64/physicalmem.rs` — a bump-style physical frame allocator
  (an `AtomicU64` cursor; `allocate` and `FrameAlloc::allocate_frame`).
* `src/kernel.rs` — the ELF kernel object loader (`Object::mem_size`,
  `Object::load_kernel`).
* `src/arch/x86_64/paging.rs` — the 4-level page table manager
  (`PageTableEntry::set`, `map_page_in_this_table`, `map_page`, `map_pages`,
  `get_page_range`, `map`).

Machine integers (`u64` / `usize`) are modelled as `Nat` with explicit
`% 2 ^ 64` where the Rust code can wrap (release-profile semantics; where a
debug build would instead panic on an overflowing subtraction the affected
theorems carry hypotheses ruling the overflow out, and counterexamples note
that either behavior refutes the claim in question).  Code paths that panic
(assertions, `unwrap`, slice bounds) are modelled as `Option` returning
`none`.  The raw bytes backing `MaybeUninit<u8>` buffers are modelled as
`Option Nat` so that uninitialized bytes stay observable.
-/

/-- Truncation to 64 bits, the wrap-around of `u64`/`usize` arithmetic. -/
def w64 (n : Nat) : Nat := n % 2 ^ 64

/-- Wrapping `u64` subtraction `a - b` (two-complement wrap on underflow). -/
def wsub64 (a b : Nat) : Nat := (a + 2 ^ 64 - b % 2 ^ 64) % 2 ^ 64

theorem w64_eq_of_lt {n : Nat} (h : n < 2 ^ 64) : w64 n = n := Nat.mod_eq_of_lt h

theorem wsub64_eq_sub {a b : Nat} (hb : b ≤ a) (ha : a < 2 ^ 64) :
    wsub64 a b = a - b := by
  unfold wsub64
  have hb64 : b < 2 ^ 64 := lt_of_le_of_lt hb ha
  rw [Nat.mod_eq_of_lt hb64]
  omega

/-! ## Physical frame allocator (`src/arch/x86_64/physicalmem.rs`)

The allocator state is the single `AtomicU64` cursor `CURRENT_ADDR`,
modelled by a plain `Nat` (the boot loader is single-threaded, and the code
itself only uses `Relaxed` loads/stores and one `fetch_add`).
`init(address)` stores `address` into the cursor, so a sequence of calls
after `init a` is modelled as a fold starting from cursor value `a`. -/

/-- Size of a 4 KiB base page, `BasePageSize::SIZE`. -/
def BASE_PAGE_SIZE : Nat := 4096

/-- Model of `physicalmem::allocate(size)`: asserts `size > 0`, `size` a
multiple of the base page size and the cursor nonzero (initialized), then
performs `CURRENT_ADDR.fetch_add(size)`, returning the old cursor value and
the new (wrapped) cursor. `none` models a failed assertion. -/
def allocate (size cursor : Nat) : Option (Nat × Nat) :=
  if size = 0 then none
  else if size % BASE_PAGE_SIZE ≠ 0 then none
  else if cursor = 0 then none
  else some (cursor, w64 (cursor + size))

/-- Model of `FrameAlloc::allocate_frame::<S>` for a frame size `size`:
loads the cursor (asserting it nonzero and, via `PhysAddr::new`, below
`2 ^ 52`); if the cursor is not already `size`-aligned, takes the next
frame via `frame + 1`, whose `PhysAddr::new(down + size)` asserts that
the rounded-up start also stays below `2 ^ 52`; stores
`frame start + size` back. Returns the frame start address and the new
cursor; `none` models a failed assertion. -/
def allocate_frame (size cursor : Nat) : Option (Nat × Nat) :=
  if cursor = 0 then none
  else if 2 ^ 52 ≤ cursor then none
  else
    let down := cursor - cursor % size
    if down = cursor then some (down, w64 (down + size))
    else if 2 ^ 52 ≤ down + size then none
    else some (down + size, w64 (down + size + size))

/-- A run of `allocate` calls with the given sizes, threading the cursor.
Returns the list of returned addresses and the final cursor. -/
def allocateSeq (cursor : Nat) : List Nat → Option (List Nat × Nat)
  | [] => some ([], cursor)
  | size :: rest =>
    match allocate size cursor with
    | none => none
    | some (addr, cursor') =>
      match allocateSeq cursor' rest with
      | none => none
      | some (addrs, final) => some (addr :: addrs, final)

/-! ## ELF kernel object loader (`src/kernel.rs`) -/

/-- An ELF64 program header, the fields of `goblin::elf64::ProgramHeader`. -/
structure ProgramHeader where
  p_type : Nat
  p_flags : Nat
  p_offset : Nat
  p_vaddr : Nat
  p_paddr : Nat
  p_filesz : Nat
  p_memsz : Nat
  p_align : Nat
deriving DecidableEq

/-- An ELF64 explicit-addend relocation, `goblin::elf64::reloc::Rela`.
The addend is an `i64`, hence an `Int`. -/
structure Rela where
  r_offset : Nat
  r_info : Nat
  r_addend : Int
deriving DecidableEq

/-- `program_header::PT_LOAD`. -/
def PT_LOAD : Nat := 1

/-- `program_header::PT_TLS`. -/
def PT_TLS : Nat := 7

/-- `header::ET_EXEC`. -/
def ET_EXEC : Nat := 2

/-- `header::ET_DYN`. -/
def ET_DYN : Nat := 3

/-- `arch::R_RELATIVE` for x86-64 (`R_X86_64_RELATIVE`). -/
def R_RELATIVE : Nat := 8

/-- `reloc::r_type(r_info)`: the low 32 bits of `r_info`. -/
def r_type (r_info : Nat) : Nat := r_info % 2 ^ 32

/-- Whether a program header is loadable: `ph.p_type == PT_LOAD`. -/
def isLoad (ph : ProgramHeader) : Bool := ph.p_type == PT_LOAD

/-- A parsed kernel object (`Object<'a>`) after `Object::parse`: the raw
file bytes, the fields of the ELF header that `load_kernel` consumes, the
program headers and the explicit-addend relocations. -/
structure Object where
  elf : List Nat
  e_type : Nat
  e_entry : Nat
  phs : List ProgramHeader
  relas : List Rela

/-- Model of `Object::mem_size`: span from the virtual address of the
first `PT_LOAD` program header (in table order) to the end address of the
last `PT_LOAD` program header (in table order), with wrapping `u64`
arithmetic. `none` models the `unwrap` panic when no loadable header
exists. -/
def mem_size (o : Object) : Option Nat :=
  match o.phs.find? isLoad with
  | none => none
  | some first_ph =>
    match o.phs.reverse.find? isLoad with
    | none => none
    | some last_ph =>
      some (wsub64 (w64 (last_ph.p_vaddr + last_ph.p_memsz)) first_ph.p_vaddr)

/-- The destination buffer of `load_kernel`: a run of `MaybeUninit<u8>`
cells; `none` is an uninitialized byte. -/
abbrev Buffer := List (Option Nat)

/-- Overwrite `bs.length` cells of `mem` starting at `start` with the
(initialized) bytes `bs`. -/
def writeBytes (mem : Buffer) (start : Nat) (bs : List Nat) : Buffer :=
  mem.take start ++ bs.map some ++ mem.drop (start + bs.length)

/-- Model of one iteration of the segment-loading loop in
`Object::load_kernel`: copy the on-disk bytes of loadable header `ph` to
buffer offset `p_vaddr - load_start_addr` and zero-fill up to `p_memsz`.
`none` models a slice-bounds panic (including the wrapped offset produced
by an underflowing `p_vaddr - load_start_addr`). -/
def loadSegment (elf : List Nat) (start : Nat) (ph : ProgramHeader) (mem : Buffer) :
    Option Buffer :=
  let memStart := wsub64 ph.p_vaddr start
  let memLen := ph.p_memsz
  if memStart + memLen ≤ mem.length then
    let fileLen := ph.p_filesz
    if fileLen ≤ memLen then
      if ph.p_offset + fileLen ≤ elf.length then
        let fileBytes := (elf.drop ph.p_offset).take fileLen
        some (writeBytes (writeBytes mem memStart fileBytes) (memStart + fileLen)
          (List.replicate (memLen - fileLen) 0))
      else none
    else none
  else none

/-- The segment-loading loop of `load_kernel` over the loadable headers. -/
def loadSegments (elf : List Nat) (start : Nat) : List ProgramHeader → Buffer → Option Buffer
  | [], mem => some mem
  | ph :: rest, mem =>
    match loadSegment elf start ph mem with
    | none => none
    | some mem' => loadSegments elf start rest mem'

/-- Little-endian bytes of a 64-bit value, `i64::to_ne_bytes` on x86-64. -/
def leBytes8 (v : Nat) : List Nat :=
  (List.range 8).map fun k => v / 2 ^ (8 * k) % 256

/-- The relocated value `kernel_addr + rela.r_addend` as a `u64` bit
pattern: `i64` wrapping addition reinterpreted as unsigned. -/
def relocValue (base : Nat) (addend : Int) : Nat :=
  (((base : Int) + addend).emod (2 ^ 64)).toNat

/-- Model of the relocation loop of `load_kernel`: for every `Rela`, if its
kind is `R_RELATIVE`, write `kernel_addr + addend` in native (little-endian)
byte order at buffer offset `r_offset`; any other kind is `unreachable!`
(`none`), as is an out-of-bounds target. -/
def applyRelas (base : Nat) : List Rela → Buffer → Option Buffer
  | [], mem => some mem
  | rela :: rest, mem =>
    if r_type rela.r_info = R_RELATIVE then
      if rela.r_offset + 8 ≤ mem.length then
        applyRelas base rest
          (writeBytes mem rela.r_offset (leBytes8 (relocValue base rela.r_addend)))
      else none
    else none

/-- The TLS descriptor built by `TlsInfo::new`: start address (adjusted by
the buffer base only for `ET_DYN` images), file size, memory size and
alignment. -/
structure TlsInfo where
  start : Nat
  filesz : Nat
  memsz : Nat
  align : Nat
deriving DecidableEq

/-- The load result `LoadInfo` of `Object::load_kernel`. -/
structure LoadInfo where
  elf_location : Option Nat
  entry_point : Nat
  tls_info : Option TlsInfo
deriving DecidableEq

/-- Model of `Object::load_kernel(memory)` where `base` is the address of
the destination buffer (`memory.as_ptr()`): assert the buffer is at least
`mem_size()` bytes, copy every loadable segment, apply the relative
relocations, and produce the `LoadInfo` (entry point and TLS start adjusted
by `base` only for position-independent images, `elf_location` reported
only for `ET_EXEC` images). `none` models any panic on the way. -/
def load_kernel (o : Object) (base : Nat) (memory : Buffer) : Option (Buffer × LoadInfo) :=
  match mem_size o with
  | none => none
  | some ms =>
    if memory.length < ms then none
    else
      match o.phs.find? isLoad with
      | none => none
      | some first_ph =>
        let load_start_addr := first_ph.p_vaddr
        match loadSegments o.elf load_start_addr (o.phs.filter isLoad) memory with
        | none => none
        | some mem1 =>
          match applyRelas base o.relas mem1 with
          | none => none
          | some mem2 =>
            let tls := (o.phs.find? fun ph => ph.p_type == PT_TLS).map fun ph =>
              TlsInfo.mk
                (if o.e_type = ET_DYN then w64 (ph.p_vaddr + base) else ph.p_vaddr)
                ph.p_filesz ph.p_memsz ph.p_align
            let entry := if o.e_type = ET_DYN then w64 (o.e_entry + base) else o.e_entry
            let loc := if o.e_type = ET_EXEC then some load_start_addr else none
            some (mem2, LoadInfo.mk loc entry tls)

/-! ## Claims C3 and C9: the bump allocator -/

theorem sub_mod_self_mod (c s : Nat) : (c - c % s) % s = 0 := by
  have h := Nat.div_add_mod c s
  have : c - c % s = s * (c / s) := by omega
  rw [this, Nat.mul_mod_right]


/-- C3: `allocate(size)` (size a positive multiple of the base page size,
cursor initialized) returns the current cursor value — here unchanged, as a
raw byte allocation imposes no extra alignment — and advances the cursor by
`size` past the returned address; `allocate_frame` for a frame of a given
page size returns the cursor rounded up to the alignment required by that
page size and likewise leaves the cursor `size` past the returned frame
start.  The frame half requires the rounded-up frame to stay below
`2 ^ 52`: otherwise the `PhysAddr::new` inside `frame + 1` panics. -/
theorem allocate_advances_cursor :
    (∀ size cursor, 0 < size → size % BASE_PAGE_SIZE = 0 → cursor ≠ 0 →
      cursor + size < 2 ^ 64 →
      allocate size cursor = some (cursor, cursor + size)) ∧
    (∀ size cursor, cursor ≠ 0 → 0 < size → cursor + size ≤ 2 ^ 52 →
      ∃ ret, allocate_frame size cursor = some (ret, ret + size) ∧
        ret % size = 0 ∧ cursor ≤ ret ∧ ret < cursor + size) := by
  constructor
  · intro size cursor hpos hmul hne hlt
    unfold allocate
    rw [if_neg (by omega), if_neg (by simp [hmul]), if_neg hne, w64_eq_of_lt hlt]
  · intro size cursor hne hpos hsz
    have hmod := Nat.mod_lt cursor hpos
    simp only [allocate_frame, if_neg hne, if_neg (show ¬ 2 ^ 52 ≤ cursor by omega)]
    rcases Nat.eq_zero_or_pos (cursor % size) with h0 | h0
    · refine ⟨cursor, ?_, by omega, le_refl _, by omega⟩
      rw [if_pos (by omega), w64_eq_of_lt (by omega)]
      rw [show cursor - cursor % size = cursor by omega]
    · refine ⟨cursor - cursor % size + size, ?_, ?_, by omega, by omega⟩
      · rw [if_neg (by omega), if_neg (by omega), w64_eq_of_lt (by omega)]
      · rw [Nat.add_mod, sub_mod_self_mod, Nat.mod_self]
        simp

/-- Closed instance of `allocate_advances_cursor`: a raw 4 KiB allocation
at cursor `0x1000` and a 2 MiB frame allocation at the unaligned cursor
`0x1001`. -/
theorem allocate_advances_cursor_witness :
    allocate 4096 4096 = some (4096, 8192) ∧
    ∃ ret, allocate_frame 2097152 4097 = some (ret, ret + 2097152) ∧
      ret % 2097152 = 0 ∧ 4097 ≤ ret ∧ ret < 4097 + 2097152 :=
  ⟨allocate_advances_cursor.1 4096 4096 (by decide) (by decide) (by decide) (by norm_num),
   allocate_advances_cursor.2 2097152 4097 (by decide) (by decide) (by norm_num)⟩

theorem take_sum_mono (l : List Nat) : ∀ i j, i ≤ j → (l.take i).sum ≤ (l.take j).sum := by
  induction l with
  | nil => simp
  | cons x xs ih =>
    intro i j hij
    cases i with
    | zero => simp
    | succ i =>
      cases j with
      | zero => omega
      | succ j =>
        simp only [List.take_succ_cons, List.sum_cons]
        exact Nat.add_le_add_left (ih i j (by omega)) x

theorem take_sum_succ (l : List Nat) : ∀ i s, l.get? i = some s →
    (l.take (i + 1)).sum = (l.take i).sum + s := by
  induction l with
  | nil => intro i s h; simp at h
  | cons x xs ih =>
    intro i s h
    cases i with
    | zero => simp_all
    | succ i =>
      simp only [List.get?_cons_succ] at h
      simp only [List.take_succ_cons, List.sum_cons, ih i s h]
      omega

theorem allocateSeq_spec (sizes : List Nat) : ∀ cursor, cursor ≠ 0 →
    (∀ s ∈ sizes, 0 < s ∧ s % BASE_PAGE_SIZE = 0) → cursor + sizes.sum < 2 ^ 64 →
    ∃ addrs, allocateSeq cursor sizes = some (addrs, cursor + sizes.sum) ∧
      addrs.length = sizes.length ∧
      ∀ i, i < sizes.length → addrs.get? i = some (cursor + (sizes.take i).sum) := by
  induction sizes with
  | nil =>
    intro cursor hne _ _
    exact ⟨[], by simp [allocateSeq], rfl, by intro i hi; simp at hi⟩
  | cons size rest ih =>
    intro cursor hne hs hb
    have hsz := hs size (List.mem_cons_self _ _)
    have hsum : cursor + size + rest.sum < 2 ^ 64 := by
      simp only [List.sum_cons] at hb; omega
    obtain ⟨addrs, ha, hlen, hget⟩ := ih (cursor + size) (by omega)
      (fun s hmem => hs s (List.mem_cons_of_mem _ hmem)) hsum
    have hall : allocate size cursor = some (cursor, cursor + size) := by
      unfold allocate
      rw [if_neg (by omega), if_neg (by simp [hsz.2]), if_neg hne,
        w64_eq_of_lt (by simp only [List.sum_cons] at hb; omega)]
    refine ⟨cursor :: addrs, ?_, by simp [hlen], ?_⟩
    · simp only [allocateSeq, hall, ha, List.sum_cons]
      have harr : cursor + size + rest.sum = cursor + (size + rest.sum) := by omega
      rw [harr]
    · intro i hi
      cases i with
      | zero => simp
      | succ i =>
        simp only [List.length_cons] at hi
        have hg := hget i (by omega)
        simp only [List.get?_cons_succ, List.take_succ_cons, List.sum_cons, hg]
        exact congrArg some (by omega)

/-- C9: after `init a` (with `a ≠ 0`), a run of `allocate(size)` calls with
positive base-page-multiple sizes (not overflowing the 64-bit cursor)
succeeds; the first call returns `a`, each later call returns exactly the
cursor left by the previous one (previous address plus previous size),
returned addresses are non-decreasing, and the returned
`[address, address + size)` ranges are pairwise disjoint (each range ends
no later than the start of every later one). -/
theorem allocate_sequence_monotone (a : Nat) (sizes : List Nat) (ha : a ≠ 0)
    (hs : ∀ s ∈ sizes, 0 < s ∧ s % BASE_PAGE_SIZE = 0)
    (hb : a + sizes.sum < 2 ^ 64) :
    ∃ addrs final, allocateSeq a sizes = some (addrs, final) ∧
      addrs.length = sizes.length ∧
      (0 < sizes.length → addrs.get? 0 = some a) ∧
      (∀ i x s, addrs.get? i = some x → sizes.get? i = some s → i + 1 < sizes.length →
        addrs.get? (i + 1) = some (x + s)) ∧
      (∀ i j x y, i ≤ j → addrs.get? i = some x → addrs.get? j = some y → x ≤ y) ∧
      (∀ i j x s y, i < j → addrs.get? i = some x → sizes.get? i = some s →
        addrs.get? j = some y → x + s ≤ y) := by
  obtain ⟨addrs, hrun, hlen, hget⟩ := allocateSeq_spec sizes a ha hs hb
  have hdom : ∀ i x, addrs.get? i = some x → i < sizes.length ∧ x = a + (sizes.take i).sum := by
    intro i x hx
    have hi : i < addrs.length := List.get?_eq_some.mp hx |>.1
    rw [hlen] at hi
    have h2 := hget i hi
    rw [hx] at h2
    exact ⟨hi, Option.some_injective _ h2⟩
  refine ⟨addrs, a + sizes.sum, hrun, hlen, ?_, ?_, ?_, ?_⟩
  · intro hpos
    simpa using hget 0 hpos
  · intro i x s hx hsi hi1
    obtain ⟨hi, rfl⟩ := hdom i x hx
    rw [hget (i + 1) hi1, take_sum_succ sizes i s hsi]
    congr 1
    omega
  · intro i j x y hij hx hy
    obtain ⟨hi, rfl⟩ := hdom i x hx
    obtain ⟨hj, rfl⟩ := hdom j y hy
    have := take_sum_mono sizes i j hij
    omega
  · intro i j x s y hij hx hsi hy
    obtain ⟨hi, rfl⟩ := hdom i x hx
    obtain ⟨hj, rfl⟩ := hdom j y hy
    have h1 := take_sum_succ sizes i s hsi
    have h2 := take_sum_mono sizes (i + 1) j hij
    omega

/-- Closed instance of `allocate_sequence_monotone`: two allocations of
4 KiB and 8 KiB starting from cursor `0x1000`. -/
theorem allocate_sequence_monotone_witness :
    ∃ addrs final, allocateSeq 4096 [4096, 8192] = some (addrs, final) ∧
      addrs.length = [4096, 8192].length ∧
      (0 < [4096, 8192].length → addrs.get? 0 = some 4096) ∧
      (∀ i x s, addrs.get? i = some x → [4096, 8192].get? i = some s →
        i + 1 < [4096, 8192].length → addrs.get? (i + 1) = some (x + s)) ∧
      (∀ i j x y, i ≤ j → addrs.get? i = some x → addrs.get? j = some y → x ≤ y) ∧
      (∀ i j x s y, i < j → addrs.get? i = some x → [4096, 8192].get? i = some s →
        addrs.get? j = some y → x + s ≤ y) :=
  allocate_sequence_monotone 4096 [4096, 8192] (by decide) (by decide) (by norm_num)

/-! ## Claims C2 and C10: `Object::mem_size` -/

/-- The counterexample object for claim C2: two loadable program headers
that are not sorted by virtual address — `[0x2000, 0x2010)` first, then
`[0x1000, 0x1010)`. The span from the lowest loadable start (`0x1000`) to
the highest loadable end (`0x2010`) is `0x1010` bytes. -/
def c2Object : Object :=
  Object.mk [] ET_DYN 0
    [ProgramHeader.mk PT_LOAD 0 0 0x2000 0 0 0x10 0,
     ProgramHeader.mk PT_LOAD 0 0 0x1000 0 0 0x10 0]
    []

/-- C2 counterexample: on an object whose loadable program headers are not
in ascending virtual-address order, `mem_size` does not return the span
from the lowest loadable start to the highest loadable end (`0x1010`
here); it subtracts the first loadable start from the last loadable end in
table order, which wraps around (a release build returns this wrapped
value, a debug build panics on the underflow — either way the claimed span
is not returned). -/
theorem mem_size_order_counterexample :
    mem_size c2Object = some (2 ^ 64 - 0xFF0) ∧ 2 ^ 64 - 0xFF0 ≠ 0x1010 := by
  constructor
  · decide
  · decide

/-- C2 amended: provided the first loadable program header (in table
order) has the lowest start address and the last loadable header (in table
order) has the highest end address — as is the case for the
ascending-`p_vaddr` order the ELF specification mandates for `PT_LOAD`
entries — `mem_size` returns the span from the lowest loadable start to
the highest loadable end. -/
theorem mem_size_span (o : Object) (first_ph last_ph : ProgramHeader)
    (h1 : o.phs.find? isLoad = some first_ph)
    (h2 : o.phs.reverse.find? isLoad = some last_ph)
    (hmin : ∀ ph ∈ o.phs, isLoad ph → first_ph.p_vaddr ≤ ph.p_vaddr)
    (hmax : ∀ ph ∈ o.phs, isLoad ph →
      ph.p_vaddr + ph.p_memsz ≤ last_ph.p_vaddr + last_ph.p_memsz)
    (hb : last_ph.p_vaddr + last_ph.p_memsz < 2 ^ 64) :
    mem_size o = some (last_ph.p_vaddr + last_ph.p_memsz - first_ph.p_vaddr) := by
  have hfm : first_ph ∈ o.phs := List.mem_of_find?_eq_some h1
  have hfl : isLoad first_ph := List.find?_some h1
  have hle : first_ph.p_vaddr ≤ last_ph.p_vaddr + last_ph.p_memsz :=
    le_trans (Nat.le_add_right _ _) (hmax first_ph hfm hfl)
  unfold mem_size
  rw [h1, h2]
  show some (wsub64 (w64 (last_ph.p_vaddr + last_ph.p_memsz)) first_ph.p_vaddr) = _
  rw [w64_eq_of_lt hb, wsub64_eq_sub hle hb]

/-- A sorted two-loadable object for the witness of `mem_size_span`. -/
def c2SortedObject : Object :=
  Object.mk [] ET_DYN 0
    [ProgramHeader.mk PT_LOAD 0 0 0x1000 0 0 0x10 0,
     ProgramHeader.mk PT_LOAD 0 0 0x2000 0 0 0x10 0]
    []

/-- Closed instance of `mem_size_span` on a sorted two-segment object. -/
theorem mem_size_span_witness : mem_size c2SortedObject = some 0x1010 :=
  mem_size_span c2SortedObject
    (ProgramHeader.mk PT_LOAD 0 0 0x1000 0 0 0x10 0)
    (ProgramHeader.mk PT_LOAD 0 0 0x2000 0 0 0x10 0)
    (by decide) (by decide) (by decide) (by decide) (by decide)

/-- C10: on a parsed object whose program-header table contains no
loadable (`PT_LOAD`) entry, both `mem_size` and `load_kernel` hit the
`unwrap` panic on `phs.iter().find(PT_LOAD)` (modelled as `none`) for any
destination buffer, rather than returning a size or a load result. -/
theorem no_loadable_panics (o : Object) (h : ∀ ph ∈ o.phs, ¬ isLoad ph) :
    mem_size o = none ∧ ∀ base memory, load_kernel o base memory = none := by
  have hf : o.phs.find? isLoad = none := List.find?_eq_none.mpr h
  have hms : mem_size o = none := by unfold mem_size; rw [hf]
  refine ⟨hms, ?_⟩
  intro base memory
  unfold load_kernel
  rw [hms]

/-- Closed instance of `no_loadable_panics`: an object whose only program
header is a `PT_TLS` segment. -/
theorem no_loadable_panics_witness :
    mem_size (Object.mk [] ET_DYN 0 [ProgramHeader.mk PT_TLS 0 0 0 0 0 0 0] []) = none ∧
    ∀ base memory,
      load_kernel (Object.mk [] ET_DYN 0 [ProgramHeader.mk PT_TLS 0 0 0 0 0 0 0] []) base memory = none :=
  no_loadable_panics _ (by decide)

/-! ## Claims C4 and C5: `Object::load_kernel` -/

theorem writeBytes_length (mem : Buffer) (start : Nat) (bs : List Nat)
    (h : start + bs.length ≤ mem.length) :
    (writeBytes mem start bs).length = mem.length := by
  unfold writeBytes
  simp only [List.length_append, List.length_take, List.length_map, List.length_drop]
  omega

theorem writeBytes_getElem? (mem : Buffer) (start : Nat) (bs : List Nat) (k : Nat)
    (h : start + bs.length ≤ mem.length) :
    (writeBytes mem start bs)[k]? =
      if k < start then mem[k]?
      else if k < start + bs.length then (bs[k - start]?).map some
      else mem[k]? := by
  unfold writeBytes
  have hts : (mem.take start).length = start := by
    simp only [List.length_take]
    omega
  rw [List.append_assoc, List.getElem?_append, hts]
  by_cases h1 : k < start
  · rw [if_pos h1, List.getElem?_take, if_pos h1, if_pos h1]
  · rw [if_neg h1, List.getElem?_append, List.length_map]
    by_cases h2 : k - start < bs.length
    · rw [if_pos h2, List.getElem?_map, if_neg h1, if_pos (by omega)]
    · rw [if_neg h2, List.getElem?_drop, if_neg h1, if_neg (by omega)]
      congr 1
      omega

theorem leBytes8_length (v : Nat) : (leBytes8 v).length = 8 := by
  simp [leBytes8]

theorem leBytes8_getElem? (v k : Nat) (h : k < 8) :
    (leBytes8 v)[k]? = some (v / 2 ^ (8 * k) % 256) := by
  simp [leBytes8, List.getElem?_range, h]

theorem loadSegment_spec (elf : List Nat) (start : Nat) (ph : ProgramHeader)
    (mem mem' : Buffer) (h : loadSegment elf start ph mem = some mem')
    (hst : start ≤ ph.p_vaddr) (hv : ph.p_vaddr < 2 ^ 64) :
    ph.p_vaddr - start + ph.p_memsz ≤ mem.length ∧ ph.p_filesz ≤ ph.p_memsz ∧
    ph.p_offset + ph.p_filesz ≤ elf.length ∧
    mem'.length = mem.length ∧
    (∀ k, (k < ph.p_vaddr - start ∨ ph.p_vaddr - start + ph.p_memsz ≤ k) →
      mem'[k]? = mem[k]?) ∧
    (∀ k, k < ph.p_memsz →
      mem'[ph.p_vaddr - start + k]? =
        if k < ph.p_filesz then (elf[ph.p_offset + k]?).map some else some (some 0)) := by
  unfold loadSegment at h
  rw [wsub64_eq_sub hst hv] at h
  dsimp only at h
  split_ifs at h with h1 h2 h3
  have hmem' : mem' = writeBytes (writeBytes mem (ph.p_vaddr - start)
      ((elf.drop ph.p_offset).take ph.p_filesz)) (ph.p_vaddr - start + ph.p_filesz)
      (List.replicate (ph.p_memsz - ph.p_filesz) 0) := by
    injection h with h
    exact h.symm
  have hfb : ((elf.drop ph.p_offset).take ph.p_filesz).length = ph.p_filesz := by
    simp only [List.length_take, List.length_drop]
    omega
  have hlen1 : (writeBytes mem (ph.p_vaddr - start)
      ((elf.drop ph.p_offset).take ph.p_filesz)).length = mem.length := by
    rw [writeBytes_length]
    rw [hfb]
    omega
  have hb1 : ph.p_vaddr - start + ((elf.drop ph.p_offset).take ph.p_filesz).length ≤ mem.length := by
    rw [hfb]; omega
  have hb2 : ph.p_vaddr - start + ph.p_filesz +
      (List.replicate (ph.p_memsz - ph.p_filesz) (0 : Nat)).length ≤
      (writeBytes mem (ph.p_vaddr - start) ((elf.drop ph.p_offset).take ph.p_filesz)).length := by
    rw [hlen1, List.length_replicate]
    omega
  have hlen : mem'.length = mem.length := by
    rw [hmem', writeBytes_length _ _ _ hb2, hlen1]
  refine ⟨h1, h2, h3, hlen, ?_, ?_⟩
  · intro k hk
    rw [hmem', writeBytes_getElem? _ _ _ _ hb2, writeBytes_getElem? _ _ _ _ hb1, hfb]
    rw [List.length_replicate]
    rcases hk with hk | hk
    · rw [if_pos (by omega), if_pos hk]
    · rw [if_neg (by omega), if_neg (by omega), if_neg (by omega), if_neg (by omega)]
  · intro k hk
    rw [hmem', writeBytes_getElem? _ _ _ _ hb2, writeBytes_getElem? _ _ _ _ hb1, hfb]
    rw [List.length_replicate]
    by_cases hf : k < ph.p_filesz
    · rw [if_pos (by omega), if_neg (by omega), if_pos (by omega), if_pos hf]
      rw [List.getElem?_take, if_pos (by omega), List.getElem?_drop]
      congr 2
      omega
    · rw [if_neg (by omega), if_pos (by omega), List.getElem?_replicate,
        if_pos (by omega), if_neg hf]
      rfl

theorem loadSegments_spec (elf : List Nat) (start : Nat) :
    ∀ (phs : List ProgramHeader) (mem mem' : Buffer),
      loadSegments elf start phs mem = some mem' →
      (∀ ph ∈ phs, start ≤ ph.p_vaddr ∧ ph.p_vaddr + ph.p_memsz < 2 ^ 64) →
      List.Pairwise (fun a b => a.p_vaddr + a.p_memsz ≤ b.p_vaddr) phs →
      mem'.length = mem.length ∧
      (∀ k, (∀ ph ∈ phs, ¬(ph.p_vaddr - start ≤ k ∧ k < ph.p_vaddr - start + ph.p_memsz)) →
        mem'[k]? = mem[k]?) ∧
      (∀ ph ∈ phs, ∀ k, k < ph.p_memsz →
        mem'[ph.p_vaddr - start + k]? =
          if k < ph.p_filesz then (elf[ph.p_offset + k]?).map some else some (some 0)) := by
  intro phs
  induction phs with
  | nil =>
    intro mem mem' h _ _
    unfold loadSegments at h
    injection h with h
    subst h
    exact ⟨rfl, fun k _ => rfl, fun ph hph => absurd hph (List.not_mem_nil ph)⟩
  | cons ph rest ih =>
    intro mem mem' h hb hp
    unfold loadSegments at h
    cases hseg : loadSegment elf start ph mem with
    | none => rw [hseg] at h; exact absurd h (by simp)
    | some mem1 =>
      rw [hseg] at h
      have hbph := hb ph (List.mem_cons_self _ _)
      obtain ⟨hs1, hs2, hs3, hslen, hsframe, hsbytes⟩ :=
        loadSegment_spec elf start ph mem mem1 hseg hbph.1 (by omega)
      have hbrest : ∀ q ∈ rest, start ≤ q.p_vaddr ∧ q.p_vaddr + q.p_memsz < 2 ^ 64 :=
        fun q hq => hb q (List.mem_cons_of_mem _ hq)
      have hprest := (List.pairwise_cons.mp hp).2
      have hafter := (List.pairwise_cons.mp hp).1
      obtain ⟨hlen, hframe, hbytes⟩ := ih mem1 mem' h hbrest hprest
      refine ⟨hlen.trans hslen, ?_, ?_⟩
      · intro k hk
        have h1 : mem'[k]? = mem1[k]? := by
          apply hframe
          intro q hq
          exact hk q (List.mem_cons_of_mem _ hq)
        have h2 := hk ph (List.mem_cons_self _ _)
        rw [h1, hsframe k (by omega)]
      · intro q hq k hk
        rcases List.mem_cons.mp hq with rfl | hq
        · have h1 : mem'[q.p_vaddr - start + k]? = mem1[q.p_vaddr - start + k]? := by
            apply hframe
            intro r hr
            have hdis := hafter r hr
            have hr1 := (hbrest r hr).1
            intro hcon
            omega
          rw [h1, hsbytes k hk]
        · exact hbytes q hq k hk

theorem applyRelas_spec (base : Nat) :
    ∀ (relas : List Rela) (mem mem' : Buffer),
      applyRelas base relas mem = some mem' →
      mem'.length = mem.length ∧
      (∀ k, (∀ r ∈ relas, ¬(r.r_offset ≤ k ∧ k < r.r_offset + 8)) → mem'[k]? = mem[k]?) ∧
      (∀ (i : Nat) (r : Rela), relas[i]? = some r →
        (∀ (j : Nat) (r' : Rela), i < j → relas[j]? = some r' →
          r.r_offset + 8 ≤ r'.r_offset ∨ r'.r_offset + 8 ≤ r.r_offset) →
        ∀ k, k < 8 →
          mem'[r.r_offset + k]? =
            some (some (relocValue base r.r_addend / 2 ^ (8 * k) % 256))) := by
  intro relas
  induction relas with
  | nil =>
    intro mem mem' h
    unfold applyRelas at h
    injection h with h
    subst h
    refine ⟨rfl, fun k _ => rfl, fun i r hr => ?_⟩
    rw [List.getElem?_nil] at hr
    exact absurd hr (by simp)

  | cons rela rest ih =>
    intro mem mem' h
    unfold applyRelas at h
    split_ifs at h with h1 h2
    have hb1 : rela.r_offset + (leBytes8 (relocValue base rela.r_addend)).length ≤ mem.length := by
      rw [leBytes8_length]
      exact h2
    have hlen1 : (writeBytes mem rela.r_offset (leBytes8 (relocValue base rela.r_addend))).length =
        mem.length := writeBytes_length _ _ _ hb1
    obtain ⟨hlen, hframe, hbytes⟩ := ih _ mem' h
    refine ⟨hlen.trans hlen1, ?_, ?_⟩
    · intro k hk
      have hk1 := hk rela (List.mem_cons_self _ _)
      have h1 : mem'[k]? = (writeBytes mem rela.r_offset (leBytes8 (relocValue base rela.r_addend)))[k]? := by
        apply hframe
        intro r hr
        exact hk r (List.mem_cons_of_mem _ hr)
      rw [h1, writeBytes_getElem? _ _ _ _ hb1, leBytes8_length]
      split_ifs with hc1 hc2
      · rfl
      · omega
      · rfl
    · intro i r hr hdis k hk
      cases i with
      | zero =>
        rw [List.getElem?_cons_zero] at hr
        have hreq : rela = r := by injection hr
        subst hreq
        have h1 : mem'[rela.r_offset + k]? =
            (writeBytes mem rela.r_offset (leBytes8 (relocValue base rela.r_addend)))[rela.r_offset + k]? := by
          apply hframe
          intro q hq
          obtain ⟨j, hj⟩ := List.getElem_of_mem hq
          have hjq : (rela :: rest)[j + 1]? = some q := by
            rw [List.getElem?_cons_succ, List.getElem?_eq_getElem hj.1, hj.2]
          have := hdis (j + 1) q (by omega) hjq
          intro hcon
          omega
        rw [h1, writeBytes_getElem? _ _ _ _ hb1, leBytes8_length]
        rw [if_neg (by omega), if_pos (by omega)]
        have hx : rela.r_offset + k - rela.r_offset = k := by omega
        rw [hx, leBytes8_getElem? _ _ hk]
        rfl
      | succ i =>
        rw [List.getElem?_cons_succ] at hr
        refine hbytes i r hr ?_ k hk
        intro j r' hij hj
        apply hdis (j + 1) r' (by omega)
        rw [List.getElem?_cons_succ]
        exact hj

theorem find?_eq_head?_filter {α : Type} (p : α → Bool) (l : List α) :
    l.find? p = (l.filter p).head? := by
  induction l with
  | nil => rfl
  | cons x xs ih =>
    by_cases h : p x
    · rw [List.find?_cons_of_pos _ h, List.filter_cons_of_pos h]
      rfl
    · rw [List.find?_cons_of_neg _ (by simp [h]), List.filter_cons_of_neg (by simp [h]), ih]

theorem wsub64_self {a : Nat} (h : a < 2 ^ 64) : wsub64 a a = 0 := by
  unfold wsub64
  rw [Nat.mod_eq_of_lt h]
  have hx : a + 2 ^ 64 - a = 2 ^ 64 := by omega
  rw [hx, Nat.mod_self]

theorem load_kernel_parts (o : Object) (base : Nat) (memory mem' : Buffer)
    (info : LoadInfo) (h : load_kernel o base memory = some (mem', info)) :
    ∃ ms first_ph mem1, mem_size o = some ms ∧ ms ≤ memory.length ∧
      o.phs.find? isLoad = some first_ph ∧
      loadSegments o.elf first_ph.p_vaddr (o.phs.filter isLoad) memory = some mem1 ∧
      applyRelas base o.relas mem1 = some mem' := by
  unfold load_kernel at h
  dsimp only at h
  split at h
  next => exact absurd h (by simp)
  next ms hms =>
    split at h
    next => exact absurd h (by simp)
    next hlen =>
      split at h
      next => exact absurd h (by simp)
      next first_ph hfind =>
        split at h
        next => exact absurd h (by simp)
        next mem1 hsegs =>
          split at h
          next => exact absurd h (by simp)
          next mem2 hrel =>
            simp only [Option.some.injEq, Prod.mk.injEq] at h
            obtain ⟨rfl, -⟩ := h
            exact ⟨ms, first_ph, mem1, hms, by omega, hfind, hsegs, hrel⟩

/-- C4: (1) for every parsed object whose only loadable segment has file
size 16, memory size 32 and file content `[0x90; 16]` (and no
relocations, as in the minimal synthetic image), `mem_size` returns 32 and
`load_kernel` into a 32-byte buffer produces `[0x90; 16] ++ [0; 16]`;
(2) in general, for every successful `load_kernel` whose loadable
segments are disjoint and sorted by virtual address (so that the first
loadable header — the one the code subtracts — has the lowest virtual
address, as the ELF specification mandates), every loadable segment's file
bytes land at buffer offset `p_vaddr - lowest p_vaddr` and the remainder
up to `p_memsz` is zero-filled. -/
theorem load_kernel_segment_bytes :
    (∀ (o : Object) (base : Nat) (ph : ProgramHeader),
      o.phs.filter isLoad = [ph] →
      ph.p_filesz = 16 → ph.p_memsz = 32 →
      ph.p_vaddr + 32 < 2 ^ 64 →
      ph.p_offset + 16 ≤ o.elf.length →
      (o.elf.drop ph.p_offset).take 16 = List.replicate 16 0x90 →
      o.relas = [] →
      mem_size o = some 32 ∧
      ∃ info, load_kernel o base (List.replicate 32 (none : Option Nat)) =
        some ((List.replicate 16 0x90 ++ List.replicate 16 0).map some, info)) ∧
    (∀ (o : Object) (base : Nat) (memory mem' : Buffer) (info : LoadInfo)
      (first_ph : ProgramHeader),
      load_kernel o base memory = some (mem', info) →
      o.relas = [] →
      o.phs.find? isLoad = some first_ph →
      List.Pairwise (fun a b => a.p_vaddr + a.p_memsz ≤ b.p_vaddr) (o.phs.filter isLoad) →
      (∀ ph ∈ o.phs.filter isLoad, ph.p_vaddr + ph.p_memsz < 2 ^ 64) →
      ∀ ph ∈ o.phs.filter isLoad, ∀ k, k < ph.p_memsz →
        mem'[ph.p_vaddr - first_ph.p_vaddr + k]? =
          if k < ph.p_filesz then (o.elf[ph.p_offset + k]?).map some
          else some (some 0)) := by
  constructor
  · intro o base ph hfilter hfsz hmsz hv helf hbytes hrelas
    have hvlt : ph.p_vaddr < 2 ^ 64 := by omega
    have hfind : o.phs.find? isLoad = some ph := by
      rw [find?_eq_head?_filter, hfilter]
      rfl
    have hrev : o.phs.reverse.find? isLoad = some ph := by
      rw [find?_eq_head?_filter, List.filter_reverse, hfilter]
      rfl
    have hms : mem_size o = some 32 := by
      unfold mem_size
      rw [hfind, hrev]
      show some (wsub64 (w64 (ph.p_vaddr + ph.p_memsz)) ph.p_vaddr) = some 32
      rw [hmsz, w64_eq_of_lt hv, wsub64_eq_sub (by omega) hv]
      congr 1
      omega
    refine ⟨hms, ?_⟩
    have hseg : loadSegment o.elf ph.p_vaddr ph (List.replicate 32 (none : Option Nat)) =
        some ((List.replicate 16 0x90 ++ List.replicate 16 0).map some) := by
      unfold loadSegment
      rw [wsub64_self hvlt]
      dsimp only
      rw [hfsz, hmsz]
      rw [if_pos (by simp), if_pos (by omega), if_pos (by omega)]
      rw [hbytes]
      decide
    have hsegs : loadSegments o.elf ph.p_vaddr (o.phs.filter isLoad)
        (List.replicate 32 (none : Option Nat)) =
        some ((List.replicate 16 0x90 ++ List.replicate 16 0).map some) := by
      rw [hfilter]
      unfold loadSegments
      rw [hseg]
      rfl
    refine ⟨LoadInfo.mk (if o.e_type = ET_EXEC then some ph.p_vaddr else none)
      (if o.e_type = ET_DYN then w64 (o.e_entry + base) else o.e_entry)
      ((o.phs.find? fun q => q.p_type == PT_TLS).map fun q =>
        TlsInfo.mk (if o.e_type = ET_DYN then w64 (q.p_vaddr + base) else q.p_vaddr)
          q.p_filesz q.p_memsz q.p_align), ?_⟩
    unfold load_kernel
    simp only [hms, hfind, hsegs, hrelas, List.length_replicate]
    rw [if_neg (by omega)]
    rfl
  · intro o base memory mem' info first_ph h hrelas hfind hsorted hbound
    obtain ⟨ms, fp, mem1, hms, hlen, hfind2, hsegs, hrel⟩ :=
      load_kernel_parts o base memory mem' info h
    have hfp : fp = first_ph := by
      rw [hfind] at hfind2
      injection hfind2 with hv
      exact hv.symm
    rw [hfp] at hsegs
    rw [hrelas] at hrel
    have hmem1 : mem1 = mem' := by
      unfold applyRelas at hrel
      injection hrel
    rw [hmem1] at hsegs
    have hhead : (o.phs.filter isLoad).head? = some first_ph := by
      rw [← find?_eq_head?_filter, hfind]
    have hstart : ∀ ph ∈ o.phs.filter isLoad, first_ph.p_vaddr ≤ ph.p_vaddr := by
      cases hfil : o.phs.filter isLoad with
      | nil => rw [hfil] at hhead; exact absurd hhead (by simp)
      | cons a rest =>
        rw [hfil] at hhead
        have ha : a = first_ph := by injection hhead
        subst ha
        rw [hfil] at hsorted
        intro ph hph
        rcases List.mem_cons.mp hph with rfl | hph
        · exact le_refl _
        · have := (List.pairwise_cons.mp hsorted).1 ph hph
          omega
    have hbs : ∀ ph ∈ o.phs.filter isLoad,
        first_ph.p_vaddr ≤ ph.p_vaddr ∧ ph.p_vaddr + ph.p_memsz < 2 ^ 64 :=
      fun ph hph => ⟨hstart ph hph, hbound ph hph⟩
    obtain ⟨-, -, hbytes⟩ :=
      loadSegments_spec o.elf first_ph.p_vaddr (o.phs.filter isLoad) memory mem'
        hsegs hbs hsorted
    exact hbytes

/-- The minimal synthetic one-segment image of the C4 scenario: one
loadable header with file size 16, memory size 32, file bytes `[0x90; 16]`
at offset `0x40`, no relocations. -/
def c4Object : Object :=
  Object.mk (List.replicate 0x40 7 ++ List.replicate 16 0x90) ET_DYN 0
    [ProgramHeader.mk PT_LOAD 0 0x40 0x10000 0 16 32 8] []

/-- Closed instance of `load_kernel_segment_bytes` on `c4Object`. -/
theorem load_kernel_segment_bytes_witness :
    mem_size c4Object = some 32 ∧
    ∃ info, load_kernel c4Object 0x4000 (List.replicate 32 (none : Option Nat)) =
      some ((List.replicate 16 0x90 ++ List.replicate 16 0).map some, info) :=
  load_kernel_segment_bytes.1 c4Object 0x4000
    (ProgramHeader.mk PT_LOAD 0 0x40 0x10000 0 16 32 8)
    (by decide) (by decide) (by decide) (by norm_num) (by decide) (by decide) (by decide)

/-- The single-relocation image of the C5 scenario: one loadable segment
(16 file bytes of zeros covering the whole buffer) and one `R_RELATIVE`
relocation at offset 8 with addend `0x100`. -/
def c5Object : Object :=
  Object.mk (List.replicate 64 0) ET_DYN 0
    [ProgramHeader.mk PT_LOAD 0 0 0 0 16 16 8]
    [Rela.mk 8 8 0x100]

/-- C5: (1) for every successful `load_kernel` into a buffer based at
`base`, every relative relocation whose 8-byte target is not overwritten
by a later relocation leaves `base + addend` (truncated to 64 bits) in
native little-endian byte order at buffer offset `r_offset`; (2) in
particular, loading `c5Object` (a single relative relocation at offset 8
with addend `0x100`) into a buffer based at `0x4000` puts the value
`0x4100` at offset 8. -/
theorem load_kernel_applies_relocations :
    (∀ (o : Object) (base : Nat) (memory mem' : Buffer) (info : LoadInfo),
      load_kernel o base memory = some (mem', info) →
      ∀ (i : Nat) (r : Rela), o.relas[i]? = some r →
        (∀ (j : Nat) (r' : Rela), i < j → o.relas[j]? = some r' →
          r.r_offset + 8 ≤ r'.r_offset ∨ r'.r_offset + 8 ≤ r.r_offset) →
        ∀ k, k < 8 →
          mem'[r.r_offset + k]? =
            some (some (relocValue base r.r_addend / 2 ^ (8 * k) % 256))) ∧
    load_kernel c5Object 0x4000 (List.replicate 16 (none : Option Nat)) =
      some (List.map some [0, 0, 0, 0, 0, 0, 0, 0, 0, 0x41, 0, 0, 0, 0, 0, 0],
        LoadInfo.mk none 0x4000 none) := by
  constructor
  · intro o base memory mem' info h i r hr hdis k hk
    obtain ⟨ms, fp, mem1, hms, hlen, hfind, hsegs, hrel⟩ :=
      load_kernel_parts o base memory mem' info h
    obtain ⟨-, -, hbytes⟩ := applyRelas_spec base o.relas mem1 mem' hrel
    exact hbytes i r hr hdis k hk
  · decide

/-- Closed instance of `load_kernel_applies_relocations` part (1) at the
concrete scenario: byte 1 of the relocated value at offset `8 + 1`. -/
theorem load_kernel_applies_relocations_witness :
    (List.map some [0, 0, 0, 0, 0, 0, 0, 0, 0, 0x41, 0, 0, 0, 0, 0, 0])[8 + 1]? =
      some (some (relocValue 0x4000 0x100 / 2 ^ (8 * 1) % 256)) :=
  load_kernel_applies_relocations.1 c5Object 0x4000
    (List.replicate 16 (none : Option Nat))
    (List.map some [0, 0, 0, 0, 0, 0, 0, 0, 0, 0x41, 0, 0, 0, 0, 0, 0])
    (LoadInfo.mk none 0x4000 none)
    load_kernel_applies_relocations.2 0 (Rela.mk 8 8 0x100) (by decide)
    (by
      intro j r' hij hj
      cases j with
      | zero => omega
      | succ n =>
        rw [show c5Object.relas = [Rela.mk 8 8 0x100] from rfl,
          List.getElem?_cons_succ, List.getElem?_nil] at hj
        exact absurd hj (by simp))
    1 (by decide)

/-! ## Page table manager (`src/arch/x86_64/paging.rs`)

The four page-table levels live in physical memory frames; `tables a i` is
the raw 64-bit entry at index `i` of the 512-entry table whose frame
starts at physical address `a`.  The Rust code addresses tables through
the recursive self-map (`subtable` shifts the parent table's virtual
address and ORs in the index); under the self-map invariant that virtual
address aliases exactly the physical frame stored in the parent entry, so
the model follows the entry's physical address (`entryAddr`) instead.
The allocator cursor (`physicalmem::CURRENT_ADDR`) is carried alongside,
since `map_page` allocates subtables through `physicalmem::allocate`. -/

/-- `PageTableEntryFlags::PRESENT`. -/
def PRESENT : Nat := 1

/-- `PageTableEntryFlags::WRITABLE`. -/
def WRITABLE : Nat := 2

/-- `PageTableEntryFlags::ACCESSED`. -/
def ACCESSED : Nat := 32

/-- `PageTableEntryFlags::DIRTY`. -/
def DIRTY : Nat := 64

/-- `PageTableEntryFlags::HUGE_PAGE`. -/
def HUGE_PAGE : Nat := 128

/-- `PageTableEntryFlags::EXECUTE_DISABLE`. -/
def EXECUTE_DISABLE : Nat := 2 ^ 63

/-- The physical-address bits (12 through 51) of a page-table entry, as
the x86-64 page walk extracts them for 4 KiB-aligned structures. -/
def ADDR_MASK : Nat := 2 ^ 52 - 2 ^ 12

/-- Contents of physical memory viewed as page tables: table frame
address to entry index (0..511) to raw entry value. -/
def Tables : Type := Nat → Nat → Nat

/-- The machine state the page table manager mutates: the allocator
cursor and the contents of the page-table frames. -/
structure MachState where
  cursor : Nat
  tables : Tables

/-- Update the single entry `i` of the table at frame `a`. -/
def setCell (t : Tables) (a i v : Nat) : Tables :=
  fun b j => if b = a ∧ j = i then v else t b j

/-- Zero the whole table at frame `a` (the loop marking all entries
unused in a freshly allocated subtable). -/
def zeroTable (t : Tables) (a : Nat) : Tables :=
  fun b j => if b = a then 0 else t b j

/-- `PageTableEntry::is_present`. -/
def isPresent (e : Nat) : Bool := e &&& PRESENT != 0

/-- Whether the `HUGE_PAGE` bit of an entry is set. -/
def isHuge (e : Nat) : Bool := e &&& HUGE_PAGE != 0

/-- The physical address stored in an entry. -/
def entryAddr (e : Nat) : Nat := e &&& ADDR_MASK

/-- `PageTableEntry::set`: asserts that the physical address is aligned
to a 2 MiB boundary when the flags carry `HUGE_PAGE` and to a 4 KiB
boundary otherwise, then stores the address OR-ed with
`PRESENT | ACCESSED | flags`. -/
def entry_set (physical_address flags : Nat) : Option Nat :=
  if isHuge flags then
    if physical_address % (2 * 1024 * 1024) = 0 then
      some (physical_address ||| (PRESENT ||| ACCESSED ||| flags))
    else none
  else
    if physical_address % 4096 = 0 then
      some (physical_address ||| (PRESENT ||| ACCESSED ||| flags))
    else none

/-- The compile-time data of a `PageSize` implementation: `SIZE`,
`MAP_LEVEL` and `MAP_EXTRA_FLAG`. -/
structure PageSizeSpec where
  size : Nat
  mapLevel : Nat
  extraFlag : Nat
deriving DecidableEq

/-- `BasePageSize`: 4 KiB pages mapped in the PGT (level 0). -/
def BasePageSize : PageSizeSpec := PageSizeSpec.mk 4096 0 0

/-- `LargePageSize`: 2 MiB pages mapped in the PDT (level 1), requiring
the `HUGE_PAGE` flag. -/
def LargePageSize : PageSizeSpec := PageSizeSpec.mk (2 * 1024 * 1024) 1 HUGE_PAGE

/-- `Page::table_index::<L>`:
`virtual_address >> PAGE_BITS >> (L::LEVEL * PAGE_MAP_BITS) & PAGE_MAP_MASK`. -/
def table_index (lvl v : Nat) : Nat := v >>> 12 >>> (9 * lvl) &&& 0x1FF

/-- `Page::is_valid_address`: outside the non-canonical hole
`[0x800000000000, 0xFFFF800000000000)`. -/
def is_valid_address (virtual_address : Nat) : Bool :=
  decide (virtual_address < 0x800000000000) ||
    decide (0xFFFF800000000000 ≤ virtual_address)

/-- The `align_down!` macro for a power-of-two alignment. -/
def align_down (v a : Nat) : Nat := v - v % a

/-- `PageTable::map_page_in_this_table::<S>`: asserts `L::LEVEL ==
S::MAP_LEVEL`, remembers whether the entry was present (the returned
flush indicator), and sets the entry to the physical address with
`DIRTY | S::MAP_EXTRA_FLAG | flags` (plus `PRESENT | ACCESSED` from
`set`).  The TLB flush itself is a CPU side effect; its occurrence is
exactly the returned Bool. -/
def map_page_in_this_table (S : PageSizeSpec) (level tableAddr : Nat)
    (st : MachState) (page phys flags : Nat) : Option (MachState × Bool) :=
  if level = S.mapLevel then
    let idx := table_index level page
    let flush := isPresent (st.tables tableAddr idx)
    match entry_set phys (DIRTY ||| S.extraFlag ||| flags) with
    | none => none
    | some e =>
      some (MachState.mk st.cursor (setCell st.tables tableAddr idx e), flush)
  else none

/-- `PageTable::map_page::<S>` walking down from the table at `tableAddr`
on the given level: at the target level install the mapping in this
table; above it, descend into the subtable for the page's index,
allocating a zeroed 4 KiB frame through `physicalmem::allocate` and
marking it present and writable first when the entry is empty. -/
def map_page (S : PageSizeSpec) : Nat → Nat → MachState → Nat → Nat → Nat →
    Option (MachState × Bool)
  | 0, tableAddr, st, page, phys, flags =>
    map_page_in_this_table S 0 tableAddr st page phys flags
  | level + 1, tableAddr, st, page, phys, flags =>
    if level + 1 = S.mapLevel then
      map_page_in_this_table S (level + 1) tableAddr st page phys flags
    else if S.mapLevel < level + 1 then
      let idx := table_index (level + 1) page
      let e := st.tables tableAddr idx
      if isPresent e then
        map_page S level (entryAddr e) st page phys flags
      else
        match allocate 4096 st.cursor with
        | none => none
        | some (pa, cursor') =>
          match entry_set pa WRITABLE with
          | none => none
          | some e2 =>
            map_page S level (entryAddr e2)
              (MachState.mk cursor' (zeroTable (setCell st.tables tableAddr idx e2) (entryAddr e2)))
              page phys flags
    else none

/-- `PageTable::map_pages` over an explicit list of page addresses,
threading the physical address (`current_physical_address += S::SIZE`,
with `usize` wrap) and collecting each `map_page` flush indicator. -/
def map_pages (S : PageSizeSpec) (root : Nat) :
    List Nat → MachState → Nat → Nat → Option (MachState × List Bool)
  | [], st, _, _ => some (st, [])
  | page :: rest, st, phys, flags =>
    match map_page S 3 root st page phys flags with
    | none => none
    | some (st1, flush) =>
      match map_pages S root rest st1 (w64 (phys + S.size)) flags with
      | none => none
      | some (st2, flushes) => some (st2, flush :: flushes)

/-- The pages yielded by a `PageIter` from `first`, `n` pages spaced
`size` apart. -/
def pageList (first n size : Nat) : List Nat :=
  (List.range n).map fun i => first + i * size

/-- `get_page_range::<S>`: first page including `virtual_address`, last
page including `virtual_address + (count - 1) * S::SIZE` (with `usize`
wrap-around on `count - 1` and the arithmetic), both asserted canonical
by `Page::including_address`, and `first <= last` asserted by
`Page::range`. -/
def get_page_range (S : PageSizeSpec) (virtual_address count : Nat) : Option (List Nat) :=
  if is_valid_address virtual_address then
    let first := align_down virtual_address S.size
    let lastRaw := w64 (virtual_address + w64 ((count + (2 ^ 64 - 1)) % 2 ^ 64 * S.size))
    if is_valid_address lastRaw then
      let last := align_down lastRaw S.size
      if first ≤ last then some (pageList first ((last - first) / S.size + 1) S.size)
      else none
    else none
  else none

/-- `paging::map::<S>(virtual_address, physical_address, count, flags)`
from machine state `st` with the PML4 at frame `root`: compute the page
range (canonicality asserted before any table is written), then map the
pages starting at the root table.  The `println!`/`print_page_tables(4)`
debug dump that the source runs first, and the `disect` dump it runs
last, only read table entries and print; they never write an entry or
move the allocator cursor, so they do not appear in this state
transformer — the cells the leading dump reads are modelled separately
by `map_reads_before_range` below. -/
def map (S : PageSizeSpec) (root virtual_address physical_address count flags : Nat)
    (st : MachState) : Option (MachState × List Bool) :=
  match get_page_range S virtual_address count with
  | none => none
  | some pages => map_pages S root pages st physical_address flags

/-- The physical frame base bits of a huge-page entry terminating at
`lvl` (bits `12 + 9 * lvl` through 51). -/
def hugeMask (lvl : Nat) : Nat := 2 ^ 52 - 2 ^ (12 + 9 * lvl)

/-- The hardware page walk: starting from the table at `tableAddr` on
the given level, follow present entries; a present entry with the
huge-page bit set below the root terminates the walk at that level
(1 GiB / 2 MiB pages), a present PML4 entry with the huge bit set is a
reserved-bit violation (`none`), and level 0 entries map 4 KiB frames. -/
def translate_addr (st : MachState) : Nat → Nat → Nat → Option Nat
  | 0, tableAddr, v =>
    let e := st.tables tableAddr (table_index 0 v)
    if isPresent e then some (entryAddr e + v % 2 ^ 12) else none
  | level + 1, tableAddr, v =>
    let e := st.tables tableAddr (table_index (level + 1) v)
    if isPresent e then
      if isHuge e then
        if level + 1 = 3 then none
        else some ((e &&& hugeMask (level + 1)) + v % 2 ^ (12 + 9 * (level + 1)))
      else translate_addr st level (entryAddr e) v
    else none

/-- Follow a list of table indices down the hierarchy through present,
non-huge entries, returning the reached table's frame address. -/
def walk (st : MachState) : Nat → List Nat → Option Nat
  | a, [] => some a
  | a, i :: p =>
    let e := st.tables a i
    if isPresent e && ! isHuge e then walk st (entryAddr e) p else none

/-- The indices a virtual address uses from the root (level 3) down to
the table at level `lvl`. -/
def pathTo (v lvl : Nat) : List Nat :=
  (List.range (3 - lvl)).map fun k => table_index (3 - k) v

/-- Well-formedness of a paging state: the allocator cursor is
initialized and page-aligned, every reachable table frame is
page-aligned and lies strictly below the cursor (so fresh allocations
never alias existing tables), and every reachable frame is reachable by
exactly one path (the hierarchy is a tree). -/
def PagingWF (st : MachState) (root : Nat) : Prop :=
  st.cursor ≠ 0 ∧ st.cursor % 4096 = 0 ∧
  (∀ p a, p.length ≤ 3 → walk st root p = some a → a % 4096 = 0 ∧ a < st.cursor) ∧
  (∀ p q a, p.length ≤ 3 → q.length ≤ 3 → walk st root p = some a →
    walk st root q = some a → p = q)

/-- No present huge entry blocks the path of `v` above level `mlvl`:
descending on `v`'s path never dereferences a huge-page entry as a
subtable pointer. -/
def pathClear (st : MachState) (root v mlvl : Nat) : Prop :=
  ∀ lvl a, mlvl < lvl → lvl ≤ 3 → walk st root (pathTo v lvl) = some a →
    ¬(isPresent (st.tables a (table_index lvl v)) = true ∧
      isHuge (st.tables a (table_index lvl v)) = true)

/-- The page-table slot that terminates `v`'s mapping at size `S` exists
and holds a present entry. -/
def leafPresent (st : MachState) (root : Nat) (S : PageSizeSpec) (v : Nat) : Prop :=
  ∃ t, walk st root (pathTo v S.mapLevel) = some t ∧
    isPresent (st.tables t (table_index S.mapLevel v)) = true

/-- The all-zero-tables machine state with the given allocator cursor. -/
def initState (cursor : Nat) : MachState := MachState.mk cursor (fun _ _ => 0)

/-! ## Claim C8: non-canonical addresses are rejected before any write -/

/-- The slots the inner `print` of `print_page_tables` reads from the
table at frame `a` over the given indices: the `iter().filter(...)` loop
reads every slot; when `recurse` holds (the table is above `min_level`)
a nonzero entry with the huge bit clear is followed into its subtable
through `sub`, after `entry.frame().unwrap()` — which panics (`none`)
if that entry is not present. -/
def printRow (st : MachState) (a : Nat) (recurse : Bool)
    (sub : Nat → Option (List (Nat × Nat))) : List Nat → Option (List (Nat × Nat))
  | [] => some []
  | i :: is =>
    let e := st.tables a i
    let below : Option (List (Nat × Nat)) :=
      if e = 0 then some []
      else if recurse = false then some []
      else if isHuge e then some []
      else if isPresent e = false then none
      else sub e
    match below with
    | none => none
    | some rs2 =>
      match printRow st a recurse sub is with
      | none => none
      | some rs3 => some ((a, i) :: (rs2 ++ rs3))

/-- `print(table, level, min_level)` of `print_page_tables`: the
page-table cells it reads, in order (the level-0 case is never reached,
as the recursion guard `level > min_level ≥ 1` stops at level 1). -/
def printReads (st : MachState) (minl : Nat) : Nat → Nat → Option (List (Nat × Nat))
  | 0, _ => some []
  | level + 1, a =>
    printRow st a (decide (minl < level + 1))
      (fun e => printReads st minl level (entryAddr e)) (List.range 512)

/-- `recursive_page_table()`: `RecursivePageTable::new` reads the PML4's
recursive entry — slot 511, since every table index of the PML4 pointer
`0xFFFF_FFFF_FFFF_F000` is 511 — and requires it to be present and to
point back at the PML4 frame itself; the `unwrap` panics (`none`)
otherwise. -/
def recursive_page_table_reads (st : MachState) (root : Nat) : Option (List (Nat × Nat)) :=
  let e := st.tables root 511
  if isPresent e && (entryAddr e == root) then some [(root, 511)] else none

/-- The page-table cells `paging::map` reads before `get_page_range`
runs its canonicality assertion: `print_page_tables(4)` first builds a
`RecursivePageTable` (reading the recursive PML4 entry), then prints the
hierarchy from the PML4 (level 4) down to `min_level = 5 - 4 = 1`,
reading every slot of every visited table; the `println!` calls produce
output only. -/
def map_reads_before_range (st : MachState) (root : Nat) : Option (List (Nat × Nat)) :=
  match recursive_page_table_reads st root with
  | none => none
  | some rs =>
    match printReads st 1 4 root with
    | none => none
    | some rs2 => some (rs ++ rs2)

/-- A machine state whose PML4 (frame `0x1000`) holds only the recursive
self-map entry in slot 511, as the loader's boot tables do. -/
def c8SelfMapState : MachState :=
  MachState.mk 0x2000
    (fun a i => if a = 0x1000 ∧ i = 511 then 0x1000 ||| (PRESENT ||| WRITABLE) else 0)

/-- `printRow` succeeds and reads every listed slot as soon as each slot
is empty, below the recursion guard, huge, or present with a successful
subtable read. -/
theorem printRow_some (st : MachState) (a : Nat) (recurse : Bool)
    (sub : Nat → Option (List (Nat × Nat))) :
    ∀ is : List Nat,
      (∀ i ∈ is, st.tables a i = 0 ∨ recurse = false ∨ isHuge (st.tables a i) = true ∨
        (isPresent (st.tables a i) = true ∧ sub (st.tables a i) ≠ none)) →
      ∃ rs, printRow st a recurse sub is = some rs ∧ ∀ i ∈ is, (a, i) ∈ rs := by
  intro is
  induction is with
  | nil =>
    intro _
    exact ⟨[], rfl, by simp⟩
  | cons i is ih =>
    intro h
    obtain ⟨rs3, hrs3, hmem3⟩ := ih fun j hj => h j (by simp [hj])
    have hi := h i (by simp)
    have hbelow : ∃ bl, (if st.tables a i = 0 then some ([] : List (Nat × Nat))
        else if recurse = false then some []
        else if isHuge (st.tables a i) then some []
        else if isPresent (st.tables a i) = false then none
        else sub (st.tables a i)) = some bl := by
      split_ifs with h1 h2 h3 h4
      · exact ⟨[], rfl⟩
      · exact ⟨[], rfl⟩
      · exact ⟨[], rfl⟩
      · rcases hi with h0 | h0 | h0 | ⟨h5, h6⟩
        · exact absurd h0 h1
        · exact absurd h0 h2
        · exact absurd h0 h3
        · rw [h5] at h4
          simp at h4
      · rcases hi with h0 | h0 | h0 | ⟨h5, h6⟩
        · exact absurd h0 h1
        · exact absurd h0 h2
        · exact absurd h0 h3
        · obtain ⟨bl, hbl⟩ := Option.ne_none_iff_exists'.mp h6
          exact ⟨bl, hbl⟩
    obtain ⟨bl, hbl⟩ := hbelow
    refine ⟨(a, i) :: (bl ++ rs3), ?_, ?_⟩
    · simp only [printRow, hbl, hrs3]
    · intro j hj
      rcases List.mem_cons.mp hj with hj | hj
      · subst hj
        simp
      · simp [hmem3 j hj]

/-- In the boot self-map state the dump's walk succeeds from any level up
to the PML4 and reads the self-map slot `(0x1000, 511)`. -/
theorem printReads_c8 :
    ∀ lvl, 1 ≤ lvl → lvl ≤ 4 →
      ∃ rs, printReads c8SelfMapState 1 lvl 0x1000 = some rs ∧ (0x1000, 511) ∈ rs := by
  intro lvl
  induction lvl with
  | zero => intro h _; omega
  | succ l ih =>
    intro _ hle
    have hcell : c8SelfMapState.tables 0x1000 511 = 0x1000 ||| (PRESENT ||| WRITABLE) := rfl
    have hzero : ∀ i, i ≠ 511 → c8SelfMapState.tables 0x1000 i = 0 := by
      intro i hi
      show (if (0x1000 : Nat) = 0x1000 ∧ i = 511 then (0x1000 : Nat) ||| (PRESENT ||| WRITABLE)
        else 0) = 0
      rw [if_neg (by simp [hi])]
    rcases Nat.eq_zero_or_pos l with hl | hl
    · subst hl
      obtain ⟨rs, hrs, hmem⟩ := printRow_some c8SelfMapState 0x1000 (decide (1 < 0 + 1))
        (fun e => printReads c8SelfMapState 1 0 (entryAddr e)) (List.range 512)
        (fun i _ => Or.inr (Or.inl (by decide)))
      refine ⟨rs, ?_, hmem 511 (List.mem_range.mpr (by omega))⟩
      simp only [printReads]
      exact hrs
    · obtain ⟨rs', hrs', hmem'⟩ := ih (by omega) (by omega)
      have haddr : entryAddr (0x1000 ||| (PRESENT ||| WRITABLE)) = 0x1000 := by decide
      obtain ⟨rs, hrs, hmem⟩ := printRow_some c8SelfMapState 0x1000 (decide (1 < l + 1))
        (fun e => printReads c8SelfMapState 1 l (entryAddr e)) (List.range 512)
        (by
          intro i _
          by_cases hi : i = 511
          · subst hi
            refine Or.inr (Or.inr (Or.inr ⟨?_, ?_⟩))
            · rw [hcell]
              decide
            · show printReads c8SelfMapState 1 l
                (entryAddr (c8SelfMapState.tables 0x1000 511)) ≠ none
              rw [hcell, haddr, hrs']
              simp
          · exact Or.inl (hzero i hi))
      refine ⟨rs, ?_, hmem 511 (List.mem_range.mpr (by omega))⟩
      simp only [printReads]
      exact hrs

/-- C8 counterexample: the claim's "aborts before any page-table entry is
read" is false of the program.  `paging::map` runs `print_page_tables(4)`
before `get_page_range`: from a state holding the boot self-map, mapping
the non-canonical address `0x8000_0000_0001` aborts with nothing written
(no successor state), but the debug dump has already read page-table
entries — among them the recursive PML4 entry `(0x1000, 511)`. -/
theorem map_reads_counterexample :
    map BasePageSize 0x1000 0x800000000001 0 1 0 c8SelfMapState = none ∧
    ∃ rs, map_reads_before_range c8SelfMapState 0x1000 = some rs ∧ (0x1000, 511) ∈ rs := by
  constructor
  · have hval : is_valid_address 0x800000000001 = false := by decide
    unfold map get_page_range
    rw [hval]
    rfl
  · obtain ⟨rs, hrs, hmem⟩ := printReads_c8 4 (by omega) (by omega)
    have hrec : recursive_page_table_reads c8SelfMapState 0x1000 = some [(0x1000, 511)] := by
      decide
    refine ⟨(0x1000, 511) :: rs, ?_, by simp⟩
    have hall : map_reads_before_range c8SelfMapState 0x1000 =
        some ([(0x1000, 511)] ++ rs) := by
      simp only [map_reads_before_range, hrec, hrs]
    rw [hall]
    rfl

/-- C8 (amended): a `map` call whose virtual address lies in the
non-canonical hole aborts before any page-table entry is *written* — the
`is_valid_address` assertion in `Page::including_address` fires inside
`get_page_range`, before `map_pages` touches any table — so neither the
hierarchy nor the allocator cursor changes: the model returns `none`
without a successor state.  (The debug dump at the top of `map` has read
table entries by then — see the counterexample — but writes nothing.) -/
theorem map_rejects_noncanonical (S : PageSizeSpec) (root V P count flags : Nat)
    (st : MachState) (h1 : 0x800000000000 ≤ V) (h2 : V < 0xFFFF800000000000) :
    map S root V P count flags st = none := by
  have hval : is_valid_address V = false := by
    unfold is_valid_address
    simp only [Bool.or_eq_false_iff, decide_eq_false_iff_not]
    omega
  unfold map get_page_range
  rw [hval]
  rfl

/-- Closed instance of `map_rejects_noncanonical` at the spec's example
address `0x8000_0000_0001`. -/
theorem map_rejects_noncanonical_witness :
    map BasePageSize 0x1000 0x800000000001 0 1 0 (initState 0x2000) = none :=
  map_rejects_noncanonical BasePageSize 0x1000 0x800000000001 0 1 0 (initState 0x2000)
    (by norm_num) (by norm_num)

/-! ## Claim C6: flags of the installed leaf entry -/

/-- C6 counterexample: the huge-page bit is not independent of the
caller's flags.  Mapping a single 4 KiB page (`BasePageSize`, whose
`MAP_EXTRA_FLAG` is empty) with caller flags `HUGE_PAGE` succeeds (the
physical address 0 passes the 2 MiB alignment assertion) and installs a
leaf entry whose huge-page bit is set, although the chosen page size does
not require it. -/
theorem map_huge_flag_counterexample :
    (map BasePageSize 0x1000 0 0 1 HUGE_PAGE (initState 0x2000)).map
      (fun p => (walk p.1 0x1000 (pathTo 0 0),
        isHuge (p.1.tables 0x4000 (table_index 0 0)))) = some (some 0x4000, true) ∧
    BasePageSize.extraFlag = 0 := by
  constructor
  · decide
  · decide

/-! ## Bit-level lemmas for page-table entries -/

theorem isPresent_eq_testBit (e : Nat) : isPresent e = e.testBit 0 := by
  unfold isPresent PRESENT
  rw [Nat.and_one_is_mod, Nat.testBit_to_div_mod]
  rcases Nat.mod_two_eq_zero_or_one e with h | h <;> simp [h]

theorem isHuge_eq_testBit (e : Nat) : isHuge e = e.testBit 7 := by
  unfold isHuge HUGE_PAGE
  rw [show (128 : Nat) = 2 ^ 7 from rfl, Nat.and_two_pow]
  cases h : e.testBit 7 <;> simp [h]

theorem testBit_eq_false_of_mod {x k j : Nat} (h : x % 2 ^ k = 0) (hj : j < k) :
    x.testBit j = false := by
  have hm := Nat.testBit_mod_two_pow x k j
  rw [h, Nat.zero_testBit] at hm
  rw [decide_eq_true hj, Bool.true_and] at hm
  exact hm.symm

theorem testBit_eq_false_of_lt {x k j : Nat} (h : x < 2 ^ k) (hj : k ≤ j) :
    x.testBit j = false :=
  Nat.testBit_lt_two_pow (lt_of_lt_of_le h (Nat.pow_le_pow_right (by omega) hj))

theorem ADDR_MASK_testBit (j : Nat) :
    ADDR_MASK.testBit j = (decide (12 ≤ j) && decide (j < 52)) := by
  have h : ADDR_MASK = (2 ^ 40 - 1) <<< 12 := by
    rw [Nat.shiftLeft_eq]
    unfold ADDR_MASK
    norm_num
  rw [h, Nat.testBit_shiftLeft, Nat.testBit_two_pow_sub_one, ← Bool.decide_and, ← Bool.decide_and,
    decide_eq_decide]
  omega

theorem hugeMask_testBit (lvl j : Nat) (hl : lvl ≤ 3) :
    (hugeMask lvl).testBit j = (decide (12 + 9 * lvl ≤ j) && decide (j < 52)) := by
  have h : hugeMask lvl = (2 ^ (40 - 9 * lvl) - 1) <<< (12 + 9 * lvl) := by
    rw [Nat.shiftLeft_eq]
    unfold hugeMask
    have h9 : 9 * lvl ≤ 27 := by omega
    have : 2 ^ (40 - 9 * lvl) * 2 ^ (12 + 9 * lvl) = 2 ^ 52 := by
      rw [← pow_add]
      congr 1
      omega
    rw [Nat.sub_one_mul, this]
  rw [h, Nat.testBit_shiftLeft, Nat.testBit_two_pow_sub_one, ← Bool.decide_and, ← Bool.decide_and,
    decide_eq_decide]
  omega

theorem land_zero_testBit {a m : Nat} (h : a &&& m = 0) (j : Nat) :
    (a.testBit j && m.testBit j) = false := by
  have hc := congrArg (fun x => Nat.testBit x j) h
  simpa [Nat.testBit_land, Nat.zero_testBit] using hc

theorem lor_land_zero {a b m : Nat} (ha : a &&& m = 0) (hb : b &&& m = 0) :
    (a ||| b) &&& m = 0 := by
  apply Nat.eq_of_testBit_eq
  intro j
  have h1 := land_zero_testBit ha j
  have h2 := land_zero_testBit hb j
  rw [Nat.testBit_land, Nat.testBit_lor, Nat.zero_testBit]
  cases hx : a.testBit j <;> cases hy : b.testBit j <;> cases hz : m.testBit j <;>
    simp_all

theorem mod_pow_of_mod_pow {x a b : Nat} (h : x % 2 ^ a = 0) (hba : b ≤ a) :
    x % 2 ^ b = 0 := by
  rw [← Nat.mod_mod_of_dvd x (pow_dvd_pow 2 hba), h, Nat.zero_mod]

theorem isPresent_lor (a b : Nat) : isPresent (a ||| b) = (isPresent a || isPresent b) := by
  rw [isPresent_eq_testBit, isPresent_eq_testBit, isPresent_eq_testBit, Nat.testBit_lor]

theorem isHuge_lor (a b : Nat) : isHuge (a ||| b) = (isHuge a || isHuge b) := by
  rw [isHuge_eq_testBit, isHuge_eq_testBit, isHuge_eq_testBit, Nat.testBit_lor]

theorem isPresent_of_mod {x : Nat} (h : x % 4096 = 0) : isPresent x = false := by
  rw [isPresent_eq_testBit]
  exact testBit_eq_false_of_mod (k := 12) (mod_pow_of_mod_pow (a := 12) h (by omega)) (by omega)

theorem isHuge_of_mod {x : Nat} (h : x % 4096 = 0) : isHuge x = false := by
  rw [isHuge_eq_testBit]
  exact testBit_eq_false_of_mod (k := 12) (mod_pow_of_mod_pow (a := 12) h (by omega)) (by omega)

theorem entryAddr_lor (phys F : Nat) (ha : phys % 4096 = 0) (hb : phys < 2 ^ 52)
    (hf : F &&& ADDR_MASK = 0) : entryAddr (phys ||| F) = phys := by
  unfold entryAddr
  apply Nat.eq_of_testBit_eq
  intro j
  rw [Nat.testBit_land, Nat.testBit_lor]
  have hFj : F.testBit j = true → ADDR_MASK.testBit j = false := by
    intro hFt
    have := land_zero_testBit hf j
    rw [hFt, Bool.true_and] at this
    exact this
  by_cases hj1 : 12 ≤ j
  · by_cases hj2 : j < 52
    · have hm : ADDR_MASK.testBit j = true := by
        rw [ADDR_MASK_testBit, decide_eq_true hj1, decide_eq_true hj2, Bool.true_and]
      rw [hm, Bool.and_true]
      cases hF : F.testBit j
      · rw [Bool.or_false]
      · rw [hFj hF] at hm
        exact absurd hm (by simp)
    · have hm : ADDR_MASK.testBit j = false := by
        rw [ADDR_MASK_testBit, decide_eq_false hj2, Bool.and_false]
      rw [hm, Bool.and_false, testBit_eq_false_of_lt hb (by omega)]
  · have hm : ADDR_MASK.testBit j = false := by
      rw [ADDR_MASK_testBit, decide_eq_false hj1, Bool.false_and]
    rw [hm, Bool.and_false,
      testBit_eq_false_of_mod (k := 12) (mod_pow_of_mod_pow (a := 12) ha (by omega)) (by omega)]

theorem hugeAddr_lor (lvl : Nat) (hl : lvl ≤ 3) (phys F : Nat)
    (ha : phys % 2 ^ (12 + 9 * lvl) = 0) (hb : phys < 2 ^ 52)
    (hf : F &&& ADDR_MASK = 0) : (phys ||| F) &&& hugeMask lvl = phys := by
  apply Nat.eq_of_testBit_eq
  intro j
  rw [Nat.testBit_land, Nat.testBit_lor]
  have hFj : F.testBit j = true → ADDR_MASK.testBit j = false := by
    intro hFt
    have hzz := land_zero_testBit hf j
    rw [hFt, Bool.true_and] at hzz
    exact hzz
  by_cases hj1 : 12 + 9 * lvl ≤ j
  · by_cases hj2 : j < 52
    · have hm : (hugeMask lvl).testBit j = true := by
        rw [hugeMask_testBit lvl j hl, decide_eq_true hj1, decide_eq_true hj2, Bool.true_and]
      rw [hm, Bool.and_true]
      cases hF : F.testBit j
      · rw [Bool.or_false]
      · have : ADDR_MASK.testBit j = false := hFj hF
        rw [ADDR_MASK_testBit, decide_eq_true (show 12 ≤ j by omega),
          decide_eq_true hj2, Bool.true_and] at this
        exact absurd this (by simp)
    · have hm : (hugeMask lvl).testBit j = false := by
        rw [hugeMask_testBit lvl j hl, decide_eq_false hj2, Bool.and_false]
      rw [hm, Bool.and_false, testBit_eq_false_of_lt hb (by omega)]
  · have hm : (hugeMask lvl).testBit j = false := by
      rw [hugeMask_testBit lvl j hl, decide_eq_false hj1, Bool.false_and]
    rw [hm, Bool.and_false,
      testBit_eq_false_of_mod (k := 12 + 9 * lvl) ha (by omega)]

theorem flags_land_ADDR_MASK_const : (PRESENT ||| ACCESSED ||| WRITABLE) &&& ADDR_MASK = 0 := by
  decide

theorem dirty_extra_land_ADDR_MASK {extra fl : Nat} (he : extra = 0 ∨ extra = HUGE_PAGE)
    (hf : fl &&& ADDR_MASK = 0) :
    (PRESENT ||| ACCESSED ||| (DIRTY ||| extra ||| fl)) &&& ADDR_MASK = 0 := by
  refine lor_land_zero (lor_land_zero (by decide) (by decide)) ?_
  refine lor_land_zero (lor_land_zero (by decide) ?_) hf
  rcases he with rfl | rfl
  · decide
  · decide

theorem entry_set_eq (phys fl : Nat) (hh : isHuge fl = false) (ha : phys % 4096 = 0) :
    entry_set phys fl = some (phys ||| (PRESENT ||| ACCESSED ||| fl)) := by
  unfold entry_set
  rw [hh, if_pos ha]
  simp

theorem entry_set_huge_eq (phys fl : Nat) (hh : isHuge fl = true)
    (ha : phys % (2 * 1024 * 1024) = 0) :
    entry_set phys fl = some (phys ||| (PRESENT ||| ACCESSED ||| fl)) := by
  unfold entry_set
  rw [hh, if_pos ha]
  simp

theorem isPresent_install (phys F : Nat) :
    isPresent (phys ||| (PRESENT ||| ACCESSED ||| F)) = true := by
  rw [isPresent_lor, isPresent_lor, isPresent_lor]
  rw [show isPresent PRESENT = true from by decide]
  simp

theorem isHuge_install (phys F : Nat) (ha : phys % 4096 = 0) :
    isHuge (phys ||| (PRESENT ||| ACCESSED ||| F)) = isHuge F := by
  rw [isHuge_lor, isHuge_lor, isHuge_lor, isHuge_of_mod ha]
  rw [show isHuge PRESENT = false from by decide, show isHuge ACCESSED = false from by decide]
  simp

/-! ## Walk and path infrastructure -/

theorem walk_append (st : MachState) :
    ∀ (p q : List Nat) (a : Nat),
      walk st a (p ++ q) = (walk st a p).bind fun b => walk st b q := by
  intro p
  induction p with
  | nil => intro q a; rfl
  | cons i p ih =>
    intro q a
    show walk st a ((i :: p) ++ q) = _
    rw [List.cons_append]
    simp only [walk]
    by_cases hc : (isPresent (st.tables a i) && ! isHuge (st.tables a i)) = true
    · rw [if_pos hc, if_pos hc, ih]
    · rw [if_neg hc, if_neg hc]
      rfl

theorem pathTo_three (v : Nat) : pathTo v 3 = [] := rfl

theorem pathTo_length (v lvl : Nat) : (pathTo v lvl).length = 3 - lvl := by
  simp [pathTo]

theorem pathTo_succ (v lvl : Nat) (h : lvl < 3) :
    pathTo v lvl = pathTo v (lvl + 1) ++ [table_index (lvl + 1) v] := by
  unfold pathTo
  rw [show 3 - lvl = (3 - (lvl + 1)) + 1 by omega, List.range_succ, List.map_append]
  congr 1
  simp only [List.map_cons, List.map_nil]
  congr 2
  omega

theorem walk_step_cond {st : MachState} {a i : Nat} {p : List Nat} {y : Nat}
    (h : walk st a (i :: p) = some y) :
    isPresent (st.tables a i) = true ∧ isHuge (st.tables a i) = false ∧
      walk st (entryAddr (st.tables a i)) p = some y := by
  revert h
  simp only [walk]
  by_cases hc : (isPresent (st.tables a i) && ! isHuge (st.tables a i)) = true
  · intro h
    rw [if_pos hc] at h
    rw [Bool.and_eq_true, Bool.not_eq_true'] at hc
    exact ⟨hc.1, hc.2, h⟩
  · intro h
    rw [if_neg hc] at h
    exact absurd h (by simp)

theorem walk_step {st : MachState} {a i : Nat} {p : List Nat}
    (h1 : isPresent (st.tables a i) = true) (h2 : isHuge (st.tables a i) = false) :
    walk st a (i :: p) = walk st (entryAddr (st.tables a i)) p := by
  simp only [walk]
  rw [if_pos (by rw [h1, h2]; rfl)]

theorem walk_mono (st st' : MachState) (root : Nat)
    (h : ∀ pr x j, pr.length ≤ 2 → walk st root pr = some x →
        isPresent (st.tables x j) = true → isHuge (st.tables x j) = false →
        st'.tables x j = st.tables x j) :
    ∀ (q pr : List Nat) (x y : Nat), pr.length + q.length ≤ 3 →
      walk st root pr = some x → walk st x q = some y → walk st' x q = some y := by
  intro q
  induction q with
  | nil => intro pr x y _ _ hq; exact hq
  | cons j q ih =>
    intro pr x y hlen hpr hq
    obtain ⟨hc1, hc2, hrest⟩ := walk_step_cond hq
    have hcell := h pr x j (by simp at hlen; omega) hpr hc1 hc2
    have hstep : walk st root (pr ++ [j]) = some (entryAddr (st.tables x j)) := by
      rw [walk_append, hpr]
      show walk st x [j] = _
      rw [walk_step hc1 hc2]
      rfl
    have hrec := ih (pr ++ [j]) (entryAddr (st.tables x j)) y
      (by simp at hlen ⊢; omega) hstep hrest
    rw [@walk_step st' x j q (by rw [hcell]; exact hc1) (by rw [hcell]; exact hc2), hcell]
    exact hrec

theorem translate_eq_of_cells (st st' : MachState) (root v : Nat)
    (h : ∀ lvl x, lvl ≤ 3 → walk st root (pathTo v lvl) = some x →
        isPresent (st.tables x (table_index lvl v)) = true →
        st'.tables x (table_index lvl v) = st.tables x (table_index lvl v)) :
    ∀ y, translate_addr st 3 root v = some y → translate_addr st' 3 root v = some y := by
  suffices hgen : ∀ (l : Nat) (x : Nat), l ≤ 3 → walk st root (pathTo v l) = some x →
      ∀ y, translate_addr st l x v = some y → translate_addr st' l x v = some y by
    intro y hy
    exact hgen 3 root (by omega) (by rw [pathTo_three]; rfl) y hy
  intro l
  induction l with
  | zero =>
    intro x hl hw y hy
    simp only [translate_addr] at hy ⊢
    by_cases hp : isPresent (st.tables x (table_index 0 v)) = true
    · rw [h 0 x (by omega) hw hp, if_pos hp]
      rw [if_pos hp] at hy
      exact hy
    · rw [if_neg hp] at hy
      exact absurd hy (by simp)
  | succ l ih =>
    intro x hl hw y hy
    simp only [translate_addr] at hy ⊢
    by_cases hp : isPresent (st.tables x (table_index (l + 1) v)) = true
    · have hcell := h (l + 1) x (by omega) hw hp
      rw [hcell, if_pos hp]
      rw [if_pos hp] at hy
      by_cases hh : isHuge (st.tables x (table_index (l + 1) v)) = true
      · rw [if_pos hh] at hy
        rw [if_pos hh]
        exact hy
      · rw [if_neg hh] at hy
        rw [if_neg hh]
        have hstep : walk st root (pathTo v l) = some (entryAddr (st.tables x (table_index (l + 1) v))) := by
          rw [pathTo_succ v l (by omega), walk_append, hw]
          show walk st x [table_index (l + 1) v] = _
          rw [walk_step hp (by revert hh; cases isHuge (st.tables x (table_index (l + 1) v)) <;> simp)]
          rfl
        exact ih (entryAddr (st.tables x (table_index (l + 1) v))) (by omega) hstep y hy
    · rw [if_neg hp] at hy
      exact absurd hy (by simp)

theorem translate_of_path (st : MachState) (root v : Nat) :
    ∀ l x, l ≤ 3 → walk st root (pathTo v l) = some x →
      translate_addr st 3 root v = translate_addr st l x v := by
  suffices hgen : ∀ k l x, l + k = 3 → walk st root (pathTo v l) = some x →
      translate_addr st 3 root v = translate_addr st l x v by
    intro l x hl hw
    exact hgen (3 - l) l x (by omega) hw
  intro k
  induction k with
  | zero =>
    intro l x hl hw
    have h3 : l = 3 := by omega
    subst h3
    rw [pathTo_three] at hw
    have hx : root = x := by injection hw
    rw [hx]
  | succ k ih =>
    intro l x hl hw
    have hl3 : l < 3 := by omega
    rw [pathTo_succ v l hl3, walk_append] at hw
    cases hmid : walk st root (pathTo v (l + 1)) with
    | none => rw [hmid] at hw; exact absurd hw (by simp)
    | some mid =>
      rw [hmid] at hw
      obtain ⟨hp, hh, hrest⟩ :=
        walk_step_cond (show walk st mid (table_index (l + 1) v :: []) = some x from hw)
      have hx : entryAddr (st.tables mid (table_index (l + 1) v)) = x := by
        injection hrest
      rw [ih (l + 1) mid (by omega) hmid]
      show translate_addr st (l + 1) mid v = translate_addr st l x v
      simp only [translate_addr]
      rw [if_pos hp, if_neg (by rw [hh]; simp), hx]

theorem sub_cells (T : Tables) (a i e2 pa x j : Nat) :
    zeroTable (setCell T a i e2) pa x j =
      if x = pa then 0 else if x = a ∧ j = i then e2 else T x j := rfl

theorem walk_sub_new (st : MachState) (root a i e2 c2 : Nat)
    (hWF : PagingWF st root)
    (hnp : isPresent (st.tables a i) = false)
    (hpa : st.cursor ≤ entryAddr e2)
    (he2p : isPresent e2 = true) (he2h : isHuge e2 = false) :
    ∀ (q pr : List Nat) (x y : Nat), pr.length + q.length ≤ 3 →
      walk st root pr = some x →
      walk (MachState.mk c2 (zeroTable (setCell st.tables a i e2) (entryAddr e2))) x q = some y →
      (walk st x q = some y) ∨
      (∃ q1, q = q1 ++ [i] ∧ walk st x q1 = some a ∧ y = entryAddr e2) := by
  intro q
  induction q with
  | nil =>
    intro pr x y _ _ hq
    exact Or.inl hq
  | cons j q ih =>
    intro pr x y hlen hpr hq
    have hxcur : x < st.cursor := by
      refine (hWF.2.2.1 pr x ?_ hpr).2
      simp at hlen
      omega
    have hxpa : x ≠ entryAddr e2 := by omega
    obtain ⟨hc1, hc2, hrest⟩ := walk_step_cond hq
    dsimp only at hc1 hc2 hrest
    rw [sub_cells, if_neg hxpa] at hc1 hc2 hrest
    by_cases hxa : x = a ∧ j = i
    · rw [if_pos hxa] at hc1 hc2 hrest
      cases q with
      | nil =>
        have hy : entryAddr e2 = y := by injection hrest
        right
        refine ⟨[], by rw [hxa.2]; rfl, ?_, hy.symm⟩
        rw [show walk st x [] = some x from rfl, hxa.1]
      | cons j2 q2 =>
        exfalso
        obtain ⟨hz1, -, -⟩ := walk_step_cond hrest
        dsimp only at hz1
        rw [sub_cells, if_pos rfl] at hz1
        exact absurd hz1 (by decide)
    · rw [if_neg hxa] at hc1 hc2 hrest
      have hstep : walk st root (pr ++ [j]) = some (entryAddr (st.tables x j)) := by
        rw [walk_append, hpr]
        show walk st x [j] = _
        rw [walk_step hc1 hc2]
        rfl
      have hrec := ih (pr ++ [j]) (entryAddr (st.tables x j)) y
        (by simp at hlen ⊢; omega) hstep hrest
      rcases hrec with hl | ⟨q1, hq1, hw1, hy⟩
      · left
        rw [walk_step hc1 hc2]
        exact hl
      · right
        refine ⟨j :: q1, by rw [hq1]; rfl, ?_, hy⟩
        rw [walk_step hc1 hc2]
        exact hw1

/-- The state after `map_page_in_this_table` installs entry `e` at index
`i` of the table at `t`. -/
def leafInstall (st : MachState) (t i e : Nat) : MachState :=
  MachState.mk st.cursor (setCell st.tables t i e)

/-- The state after the allocation branch of `map_page`: one 4 KiB frame
taken from the cursor, installed present+writable at index `i` of the
table at `a`, and zeroed. -/
def subInstall (st : MachState) (a i : Nat) : MachState :=
  MachState.mk (w64 (st.cursor + 4096))
    (zeroTable (setCell st.tables a i (st.cursor ||| (PRESENT ||| ACCESSED ||| WRITABLE)))
      (entryAddr (st.cursor ||| (PRESENT ||| ACCESSED ||| WRITABLE))))

theorem setCell_eq (T : Tables) (a i e x j : Nat) :
    setCell T a i e x j = if x = a ∧ j = i then e else T x j := rfl

theorem pathTo_index (v m k : Nat) (hk1 : m < k) (hk2 : k ≤ 3) :
    (pathTo v m)[3 - k]? = some (table_index k v) := by
  unfold pathTo
  rw [List.getElem?_map, List.getElem?_range (by omega)]
  show some (table_index (3 - (3 - k)) v) = _
  rw [show 3 - (3 - k) = k by omega]

theorem pathTo_eq_index (v w m : Nat) (h : pathTo w m = pathTo v m) :
    ∀ k, m < k → k ≤ 3 → table_index k w = table_index k v := by
  intro k hk1 hk2
  have hc := congrArg (fun l => l[3 - k]?) h
  simp only at hc
  rw [pathTo_index w m k hk1 hk2, pathTo_index v m k hk1 hk2] at hc
  injection hc

theorem walk_leaf_sub (st : MachState) (t i e : Nat) (hh : isHuge e = true) :
    ∀ (q : List Nat) (x y : Nat),
      walk (leafInstall st t i e) x q = some y → walk st x q = some y := by
  intro q
  induction q with
  | nil => intro x y hq; exact hq
  | cons j q ih =>
    intro x y hq
    obtain ⟨hc1, hc2, hrest⟩ := walk_step_cond hq
    dsimp only [leafInstall] at hc1 hc2 hrest
    by_cases hxa : x = t ∧ j = i
    · rw [setCell_eq, if_pos hxa] at hc2
      rw [hh] at hc2
      exact absurd hc2 (by simp)
    · rw [setCell_eq, if_neg hxa] at hc1 hc2 hrest
      rw [walk_step hc1 hc2]
      exact ih _ y hrest

theorem walk_leaf_eq (st : MachState) (root v : Nat) (e : Nat) (t : Nat)
    (hWF : PagingWF st root)
    (hwalk : walk st root (pathTo v 0) = some t) :
    ∀ (q pr : List Nat) (x : Nat), pr.length + q.length ≤ 3 →
      walk st root pr = some x →
      walk (leafInstall st t (table_index 0 v) e) x q = walk st x q := by
  intro q
  induction q with
  | nil => intro pr x _ _; rfl
  | cons j q ih =>
    intro pr x hlen hpr
    have hxt : x ≠ t := by
      intro hxeq
      subst hxeq
      have := hWF.2.2.2 pr (pathTo v 0) x (by simp at hlen; omega)
        (by rw [pathTo_length]) hpr hwalk
      have hlp : pr.length = (pathTo v 0).length := by rw [this]
      rw [pathTo_length] at hlp
      simp at hlen
      omega
    have hcell : (leafInstall st t (table_index 0 v) e).tables x j = st.tables x j := by
      dsimp only [leafInstall]
      rw [setCell_eq, if_neg (by intro hc; exact hxt hc.1)]
    show walk (leafInstall st t (table_index 0 v) e) x (j :: q) = _
    simp only [walk]
    rw [hcell]
    by_cases hc : (isPresent (st.tables x j) && ! isHuge (st.tables x j)) = true
    · rw [if_pos hc, if_pos hc]
      rw [Bool.and_eq_true, Bool.not_eq_true'] at hc
      have hstep : walk st root (pr ++ [j]) = some (entryAddr (st.tables x j)) := by
        rw [walk_append, hpr]
        show walk st x [j] = _
        rw [walk_step hc.1 hc.2]
        rfl
      exact ih (pr ++ [j]) (entryAddr (st.tables x j)) (by simp at hlen ⊢; omega) hstep
    · rw [if_neg hc, if_neg hc]

theorem sub_step_spec (st : MachState) (root : Nat) (p : List Nat) (a i : Nat)
    (hWF : PagingWF st root)
    (hlen : p.length ≤ 2)
    (hwalk : walk st root p = some a)
    (hnp : isPresent (st.tables a i) = false)
    (hcur : st.cursor + 4096 ≤ 2 ^ 52) :
    (subInstall st a i).cursor = st.cursor + 4096 ∧
    PagingWF (subInstall st a i) root ∧
    (∀ (q : List Nat) (y : Nat), q.length ≤ 3 → walk st root q = some y →
      walk (subInstall st a i) root q = some y) ∧
    (∀ (q : List Nat) (y : Nat), q.length ≤ 3 → walk (subInstall st a i) root q = some y →
      walk st root q = some y ∨ (q = p ++ [i] ∧ y = st.cursor)) ∧
    (∀ w y, translate_addr st 3 root w = some y →
      translate_addr (subInstall st a i) 3 root w = some y) ∧
    (∀ w m, pathClear st root w m → pathClear (subInstall st a i) root w m) ∧
    walk (subInstall st a i) root (p ++ [i]) = some st.cursor ∧
    (∀ x j, (subInstall st a i).tables x j =
      if x = st.cursor then 0
      else if x = a ∧ j = i then st.cursor ||| (PRESENT ||| ACCESSED ||| WRITABLE)
      else st.tables x j) := by
  obtain ⟨hc0, hc4, hbound, hinj⟩ := hWF
  have he2a : entryAddr (st.cursor ||| (PRESENT ||| ACCESSED ||| WRITABLE)) = st.cursor :=
    entryAddr_lor st.cursor _ hc4 (by omega) flags_land_ADDR_MASK_const
  have he2p : isPresent (st.cursor ||| (PRESENT ||| ACCESSED ||| WRITABLE)) = true :=
    isPresent_install st.cursor WRITABLE
  have he2h : isHuge (st.cursor ||| (PRESENT ||| ACCESSED ||| WRITABLE)) = false := by
    rw [isHuge_install st.cursor WRITABLE hc4]
    decide
  have hcells : ∀ x j, (subInstall st a i).tables x j =
      if x = st.cursor then 0
      else if x = a ∧ j = i then st.cursor ||| (PRESENT ||| ACCESSED ||| WRITABLE)
      else st.tables x j := by
    intro x j
    show zeroTable (setCell st.tables a i _) (entryAddr _) x j = _
    rw [sub_cells, he2a]
  have hcursor : (subInstall st a i).cursor = st.cursor + 4096 := by
    show w64 (st.cursor + 4096) = _
    rw [w64_eq_of_lt (by omega)]
  have hold : ∀ (q : List Nat) (y : Nat), q.length ≤ 3 → walk st root q = some y →
      walk (subInstall st a i) root q = some y := by
    intro q y hql hq
    refine walk_mono st (subInstall st a i) root ?_ q [] root y (by simpa using hql) rfl hq
    intro pr x j hprl hpr hp hh
    have hx := hbound pr x (by omega) hpr
    rw [hcells, if_neg (by omega)]
    by_cases hxa : x = a ∧ j = i
    · rw [hxa.1, hxa.2] at hp
      rw [hp] at hnp
      exact absurd hnp (by simp)
    · rw [if_neg hxa]
  have hnew : ∀ (q : List Nat) (y : Nat), q.length ≤ 3 →
      walk (subInstall st a i) root q = some y →
      walk st root q = some y ∨ (q = p ++ [i] ∧ y = st.cursor) := by
    intro q y hql hq
    have hq' : walk (MachState.mk (w64 (st.cursor + 4096))
        (zeroTable (setCell st.tables a i (st.cursor ||| (PRESENT ||| ACCESSED ||| WRITABLE)))
          (entryAddr (st.cursor ||| (PRESENT ||| ACCESSED ||| WRITABLE))))) root q = some y := hq
    have hch := walk_sub_new st root a i (st.cursor ||| (PRESENT ||| ACCESSED ||| WRITABLE))
      (w64 (st.cursor + 4096)) ⟨hc0, hc4, hbound, hinj⟩ hnp (by rw [he2a]) he2p he2h
      q [] root y (by simpa using hql) rfl hq'
    rcases hch with hl | ⟨q1, hq1, hw1, hy⟩
    · exact Or.inl hl
    · right
      have hq1l : q1.length ≤ 3 := by
        have := congrArg List.length hq1
        simp at this
        omega
      have hq1p : q1 = p := hinj q1 p a hq1l (by omega) hw1 hwalk
      rw [he2a] at hy
      exact ⟨by rw [hq1, hq1p], hy⟩
  have hWF' : PagingWF (subInstall st a i) root := by
    refine ⟨by rw [hcursor]; omega, by rw [hcursor]; omega, ?_, ?_⟩
    · intro q y hql hq
      rcases hnew q y hql hq with hl | ⟨-, hy⟩
      · have := hbound q y hql hl
        rw [hcursor]
        omega
      · rw [hcursor, hy]
        omega
    · intro q q' y hql hql' hq hq'
      rcases hnew q y hql hq with hl | ⟨hqe, hye⟩ <;>
        rcases hnew q' y hql' hq' with hl' | ⟨hqe', hye'⟩
      · exact hinj q q' y hql hql' hl hl'
      · have := hbound q y hql hl
        omega
      · have := hbound q' y hql' hl'
        omega
      · rw [hqe, hqe']
  have htrans : ∀ w y, translate_addr st 3 root w = some y →
      translate_addr (subInstall st a i) 3 root w = some y := by
    intro w y hy
    refine translate_eq_of_cells st (subInstall st a i) root w ?_ y hy
    intro lvl x hlvl hw hp
    have hx := hbound (pathTo w lvl) x (by rw [pathTo_length]; omega) hw
    rw [hcells, if_neg (by omega)]
    by_cases hxa : x = a ∧ table_index lvl w = i
    · rw [hxa.1, hxa.2] at hp
      rw [hp] at hnp
      exact absurd hnp (by simp)
    · rw [if_neg hxa]
  have hpc : ∀ w m, pathClear st root w m → pathClear (subInstall st a i) root w m := by
    intro w m hpcw lvl b hm hlvl hwb
    rcases hnew (pathTo w lvl) b (by rw [pathTo_length]; omega) hwb with hl | ⟨-, hyb⟩
    · have hb := hbound (pathTo w lvl) b (by rw [pathTo_length]; omega) hl
      rw [hcells, if_neg (by omega)]
      by_cases hxa : b = a ∧ table_index lvl w = i
      · rw [if_pos hxa]
        intro hcon
        rw [he2h] at hcon
        exact absurd hcon.2 (by simp)
      · rw [if_neg hxa]
        exact hpcw lvl b hm hlvl hl
    · rw [hcells, if_pos hyb]
      intro hcon
      exact absurd hcon.1 (by decide)
  refine ⟨hcursor, hWF', hold, hnew, htrans, hpc, ?_, hcells⟩
  rw [walk_append, hold p a (by omega) hwalk]
  show walk (subInstall st a i) a [i] = _
  have hai : (subInstall st a i).tables a i = st.cursor ||| (PRESENT ||| ACCESSED ||| WRITABLE) := by
    have ha := hbound p a (by omega) hwalk
    rw [hcells, if_neg (by omega), if_pos ⟨rfl, rfl⟩]
  rw [walk_step (by rw [hai]; exact he2p) (by rw [hai]; exact he2h), hai, he2a]
  rfl

theorem walk_leaf_path (st : MachState) (root t i e : Nat)
    (hWF : PagingWF st root) :
    ∀ (q pr : List Nat) (x : Nat), pr.length + q.length ≤ 3 →
      walk st root pr = some x → walk st x q = some t →
      walk (leafInstall st t i e) x q = some t := by
  intro q
  induction q with
  | nil => intro pr x _ _ hq; exact hq
  | cons j q ih =>
    intro pr x hlen hpr hq
    obtain ⟨hc1, hc2, hrest⟩ := walk_step_cond hq
    have hxt : x ≠ t := by
      intro hxeq
      have hpr' : walk st root pr = some t := by rw [← hxeq]; exact hpr
      have hfull : walk st root (pr ++ j :: q) = some t := by
        rw [walk_append, hpr']
        exact hxeq ▸ hq
      have heq := hWF.2.2.2 pr (pr ++ j :: q) t (by simp at hlen; omega)
        (by simp at hlen ⊢; omega) hpr' hfull
      have := congrArg List.length heq
      simp at this
    have hcell : (leafInstall st t i e).tables x j = st.tables x j := by
      dsimp only [leafInstall]
      rw [setCell_eq, if_neg (by intro hc; exact hxt hc.1)]
    rw [show walk (leafInstall st t i e) x (j :: q) =
      (if (isPresent ((leafInstall st t i e).tables x j) &&
          ! isHuge ((leafInstall st t i e).tables x j)) = true then
        walk (leafInstall st t i e) (entryAddr ((leafInstall st t i e).tables x j)) q
      else none) from rfl]
    rw [hcell, if_pos (by rw [hc1, hc2]; rfl)]
    have hstep : walk st root (pr ++ [j]) = some (entryAddr (st.tables x j)) := by
      rw [walk_append, hpr]
      show walk st x [j] = _
      rw [walk_step hc1 hc2]
      rfl
    exact ih (pr ++ [j]) (entryAddr (st.tables x j)) (by simp at hlen ⊢; omega) hstep hrest

theorem leaf_step_spec (st : MachState) (root v mlvl e t : Nat)
    (hWF : PagingWF st root)
    (hm : mlvl ≤ 3)
    (hwalk : walk st root (pathTo v mlvl) = some t)
    (hcase : isHuge e = true ∨ mlvl = 0) :
    PagingWF (leafInstall st t (table_index mlvl v) e) root ∧
    (∀ (q : List Nat) (y : Nat), q.length ≤ 3 →
      walk (leafInstall st t (table_index mlvl v) e) root q = some y →
      walk st root q = some y) ∧
    walk (leafInstall st t (table_index mlvl v) e) root (pathTo v mlvl) = some t ∧
    (∀ w m, mlvl ≤ m → pathClear st root w m →
      pathClear (leafInstall st t (table_index mlvl v) e) root w m) ∧
    (∀ w y lvl0, mlvl ≤ lvl0 → lvl0 ≤ 3 → table_index lvl0 w ≠ table_index lvl0 v →
      translate_addr st 3 root w = some y →
      translate_addr (leafInstall st t (table_index mlvl v) e) 3 root w = some y) := by
  obtain ⟨hc0, hc4, hbound, hinj⟩ := hWF
  have hsub : ∀ (q : List Nat) (y : Nat), q.length ≤ 3 →
      walk (leafInstall st t (table_index mlvl v) e) root q = some y →
      walk st root q = some y := by
    rcases hcase with hh | hz
    · intro q y _ hq
      exact walk_leaf_sub st t (table_index mlvl v) e hh q root y hq
    · intro q y hql hq
      subst hz
      rw [walk_leaf_eq st root v e t ⟨hc0, hc4, hbound, hinj⟩ hwalk q [] root
        (by simpa using hql) rfl] at hq
      exact hq
  have hWF' : PagingWF (leafInstall st t (table_index mlvl v) e) root := by
    refine ⟨hc0, hc4, ?_, ?_⟩
    · intro q y hql hq
      exact hbound q y hql (hsub q y hql hq)
    · intro q q' y hql hql' hq hq'
      exact hinj q q' y hql hql' (hsub q y hql hq) (hsub q' y hql' hq')
  have hpath : walk (leafInstall st t (table_index mlvl v) e) root (pathTo v mlvl) = some t :=
    walk_leaf_path st root t (table_index mlvl v) e ⟨hc0, hc4, hbound, hinj⟩
      (pathTo v mlvl) [] root (by simp only [List.length_nil, pathTo_length]; omega) rfl hwalk
  refine ⟨hWF', hsub, hpath, ?_, ?_⟩
  · intro w m hmm hpcw lvl b hm' hlvl hwb
    have hwb' := hsub (pathTo w lvl) b (by rw [pathTo_length]; omega) hwb
    have hcell : (leafInstall st t (table_index mlvl v) e).tables b (table_index lvl w) =
        st.tables b (table_index lvl w) := by
      dsimp only [leafInstall]
      rw [setCell_eq]
      by_cases hbt : b = t ∧ table_index lvl w = table_index mlvl v
      · exfalso
        have heq := hinj (pathTo w lvl) (pathTo v mlvl) t (by rw [pathTo_length]; omega)
          (by rw [pathTo_length]; omega) (by rw [← hbt.1]; exact hwb') hwalk
        have hle := congrArg List.length heq
        rw [pathTo_length, pathTo_length] at hle
        omega
      · rw [if_neg hbt]
    rw [hcell]
    exact hpcw lvl b hm' hlvl hwb'
  · intro w y lvl0 hl0 hl3 hdiff hty
    refine translate_eq_of_cells st (leafInstall st t (table_index mlvl v) e) root w ?_ y hty
    intro lvl x hlvl hw hp
    dsimp only [leafInstall]
    rw [setCell_eq]
    by_cases hbt : x = t ∧ table_index lvl w = table_index mlvl v
    · exfalso
      have heq := hinj (pathTo w lvl) (pathTo v mlvl) t (by rw [pathTo_length]; omega)
        (by rw [pathTo_length]; omega) (by rw [← hbt.1]; exact hw) hwalk
      have hle := congrArg List.length heq
      rw [pathTo_length, pathTo_length] at hle
      have hlvl_eq : lvl = mlvl := by omega
      subst hlvl_eq
      rcases Nat.eq_or_lt_of_le hl0 with h0 | h0
      · rw [← h0] at hdiff
        exact hdiff hbt.2
      · exact hdiff (pathTo_eq_index v w lvl heq lvl0 h0 hl3)
    · rw [if_neg hbt]

theorem pathTo_decompose_fuel (v : Nat) : ∀ d m l, l - m = d → m ≤ l → l < 3 →
    ∃ rest, pathTo v m = pathTo v (l + 1) ++ (table_index (l + 1) v :: rest) := by
  intro d
  induction d with
  | zero =>
    intro m l hd hm h3
    have hml : m = l := by omega
    subst hml
    exact ⟨[], by rw [pathTo_succ v m (by omega)]⟩
  | succ d ih =>
    intro m l hd hm h3
    have hlt : m < l := by omega
    obtain ⟨rest, hrest⟩ := ih (m + 1) l (by omega) (by omega) h3
    refine ⟨rest ++ [table_index (m + 1) v], ?_⟩
    rw [pathTo_succ v m (by omega), hrest]
    simp

theorem pathTo_decompose (v m l : Nat) (hm : m ≤ l) (h3 : l < 3) :
    ∃ rest, pathTo v m = pathTo v (l + 1) ++ (table_index (l + 1) v :: rest) :=
  pathTo_decompose_fuel v (l - m) m l rfl hm h3

theorem translate_leaf_base (st : MachState) (a v : Nat)
    (hp : isPresent (st.tables a (table_index 0 v)) = true) :
    translate_addr st 0 a v =
      some (entryAddr (st.tables a (table_index 0 v)) + v % 2 ^ 12) := by
  simp only [translate_addr]
  rw [if_pos hp]

theorem translate_leaf_huge (st : MachState) (a v : Nat)
    (hp : isPresent (st.tables a (table_index 1 v)) = true)
    (hh : isHuge (st.tables a (table_index 1 v)) = true) :
    translate_addr st 1 a v =
      some ((st.tables a (table_index 1 v) &&& hugeMask 1) + v % 2 ^ 21) := by
  simp only [translate_addr]
  rw [if_pos hp, if_pos hh, if_neg (by omega)]

theorem map_page_in_this_table_eq (S : PageSizeSpec) (tableAddr : Nat) (st : MachState)
    (page phys flags : Nat) (e : Nat)
    (hes : entry_set phys (DIRTY ||| S.extraFlag ||| flags) = some e) :
    map_page_in_this_table S S.mapLevel tableAddr st page phys flags =
      some (MachState.mk st.cursor
        (setCell st.tables tableAddr (table_index S.mapLevel page) e),
        isPresent (st.tables tableAddr (table_index S.mapLevel page))) := by
  unfold map_page_in_this_table
  rw [if_pos rfl]
  dsimp only
  rw [hes]

theorem map_page_leaf_spec (S : PageSizeSpec) (hS : S = BasePageSize ∨ S = LargePageSize)
    (root v phys flags : Nat)
    (hv : v % S.size = 0)
    (hphys : phys % S.size = 0) (hphys2 : phys < 2 ^ 52)
    (hflags1 : flags &&& ADDR_MASK = 0) (hflags2 : isHuge flags = false)
    (st : MachState) (a : Nat)
    (hWF : PagingWF st root)
    (hwalk : walk st root (pathTo v S.mapLevel) = some a) :
    ∃ st' fl, map_page_in_this_table S S.mapLevel a st v phys flags = some (st', fl) ∧
      st'.cursor = st.cursor ∧
      PagingWF st' root ∧
      translate_addr st' 3 root v = some phys ∧
      (∀ w y, (∃ lvl0, S.mapLevel ≤ lvl0 ∧ lvl0 ≤ 3 ∧ table_index lvl0 w ≠ table_index lvl0 v) →
        translate_addr st 3 root w = some y → translate_addr st' 3 root w = some y) ∧
      (∀ w m, S.mapLevel ≤ m → pathClear st root w m → pathClear st' root w m) ∧
      (∃ t, walk st' root (pathTo v S.mapLevel) = some t ∧
        st'.tables t (table_index S.mapLevel v) =
          phys ||| (PRESENT ||| ACCESSED ||| (DIRTY ||| S.extraFlag ||| flags))) ∧
      (fl = true ↔ leafPresent st root S v) := by
  rcases hS with rfl | rfl
  · dsimp only [BasePageSize] at hv hphys hwalk ⊢
    have hes : entry_set phys (DIRTY ||| 0 ||| flags) =
        some (phys ||| (PRESENT ||| ACCESSED ||| (DIRTY ||| 0 ||| flags))) := by
      refine entry_set_eq phys _ ?_ hphys
      rw [isHuge_lor, show isHuge (DIRTY ||| 0) = false from by decide, hflags2]
      rfl
    have hFm : (PRESENT ||| ACCESSED ||| (DIRTY ||| 0 ||| flags)) &&& ADDR_MASK = 0 :=
      dirty_extra_land_ADDR_MASK (Or.inl rfl) hflags1
    obtain ⟨hWF2, hsubw, hpath, hpcp, htransd⟩ :=
      leaf_step_spec st root v 0
        (phys ||| (PRESENT ||| ACCESSED ||| (DIRTY ||| 0 ||| flags))) a
        hWF (by omega) hwalk (Or.inr rfl)
    have hcellval : (leafInstall st a (table_index 0 v)
        (phys ||| (PRESENT ||| ACCESSED ||| (DIRTY ||| 0 ||| flags)))).tables a
          (table_index 0 v) =
        phys ||| (PRESENT ||| ACCESSED ||| (DIRTY ||| 0 ||| flags)) := by
      dsimp only [leafInstall]
      rw [setCell_eq, if_pos ⟨rfl, rfl⟩]
    refine ⟨leafInstall st a (table_index 0 v)
        (phys ||| (PRESENT ||| ACCESSED ||| (DIRTY ||| 0 ||| flags))),
      isPresent (st.tables a (table_index 0 v)),
      map_page_in_this_table_eq BasePageSize a st v phys flags _ hes, rfl, hWF2, ?_, ?_,
      hpcp, ⟨a, hpath, hcellval⟩, ?_⟩
    · rw [translate_of_path _ root v 0 a (by omega) hpath,
        translate_leaf_base _ a v (by rw [hcellval]; exact isPresent_install phys _),
        hcellval, entryAddr_lor phys _ hphys hphys2 hFm,
        show v % 2 ^ 12 = 0 from hv, Nat.add_zero]
    · intro w y hex hty
      obtain ⟨lvl0, h1, h2, h3⟩ := hex
      exact htransd w y lvl0 h1 h2 h3 hty
    · unfold leafPresent
      dsimp only [BasePageSize]
      constructor
      · intro hfl
        exact ⟨a, hwalk, hfl⟩
      · rintro ⟨t, hw, hp⟩
        rw [hwalk] at hw
        have hta : a = t := by injection hw
        rw [← hta] at hp
        exact hp
  · dsimp only [LargePageSize] at hv hphys hwalk ⊢
    have hphys4 : phys % 4096 = 0 :=
      mod_pow_of_mod_pow (a := 21) (b := 12) (show phys % 2 ^ 21 = 0 from hphys) (by omega)
    have hes : entry_set phys (DIRTY ||| HUGE_PAGE ||| flags) =
        some (phys ||| (PRESENT ||| ACCESSED ||| (DIRTY ||| HUGE_PAGE ||| flags))) := by
      refine entry_set_huge_eq phys _ ?_ hphys
      rw [isHuge_lor, show isHuge (DIRTY ||| HUGE_PAGE) = true from by decide]
      rfl
    have hFm : (PRESENT ||| ACCESSED ||| (DIRTY ||| HUGE_PAGE ||| flags)) &&& ADDR_MASK = 0 :=
      dirty_extra_land_ADDR_MASK (Or.inr rfl) hflags1
    have hhuge : isHuge (phys ||| (PRESENT ||| ACCESSED ||| (DIRTY ||| HUGE_PAGE ||| flags))) = true := by
      rw [isHuge_install phys _ hphys4, isHuge_lor,
        show isHuge (DIRTY ||| HUGE_PAGE) = true from by decide]
      rfl
    obtain ⟨hWF2, hsubw, hpath, hpcp, htransd⟩ :=
      leaf_step_spec st root v 1
        (phys ||| (PRESENT ||| ACCESSED ||| (DIRTY ||| HUGE_PAGE ||| flags))) a
        hWF (by omega) hwalk (Or.inl hhuge)
    have hcellval : (leafInstall st a (table_index 1 v)
        (phys ||| (PRESENT ||| ACCESSED ||| (DIRTY ||| HUGE_PAGE ||| flags)))).tables a
          (table_index 1 v) =
        phys ||| (PRESENT ||| ACCESSED ||| (DIRTY ||| HUGE_PAGE ||| flags)) := by
      dsimp only [leafInstall]
      rw [setCell_eq, if_pos ⟨rfl, rfl⟩]
    refine ⟨leafInstall st a (table_index 1 v)
        (phys ||| (PRESENT ||| ACCESSED ||| (DIRTY ||| HUGE_PAGE ||| flags))),
      isPresent (st.tables a (table_index 1 v)),
      map_page_in_this_table_eq LargePageSize a st v phys flags _ hes, rfl, hWF2, ?_, ?_,
      hpcp, ⟨a, hpath, hcellval⟩, ?_⟩
    · rw [translate_of_path _ root v 1 a (by omega) hpath,
        translate_leaf_huge _ a v (by rw [hcellval]; exact isPresent_install phys _)
          (by rw [hcellval]; exact hhuge),
        hcellval, hugeAddr_lor 1 (by omega) phys _ hphys hphys2 hFm,
        show v % 2 ^ 21 = 0 from hv, Nat.add_zero]
    · intro w y hex hty
      obtain ⟨lvl0, h1, h2, h3⟩ := hex
      exact htransd w y lvl0 h1 h2 h3 hty
    · unfold leafPresent
      dsimp only [LargePageSize]
      constructor
      · intro hfl
        exact ⟨a, hwalk, hfl⟩
      · rintro ⟨t, hw, hp⟩
        rw [hwalk] at hw
        have hta : a = t := by injection hw
        rw [← hta] at hp
        exact hp

theorem map_page_spec (S : PageSizeSpec) (hS : S = BasePageSize ∨ S = LargePageSize)
    (root v phys flags : Nat)
    (hv : v % S.size = 0)
    (hphys : phys % S.size = 0) (hphys2 : phys < 2 ^ 52)
    (hflags1 : flags &&& ADDR_MASK = 0) (hflags2 : isHuge flags = false) :
    ∀ (l : Nat) (st : MachState) (a : Nat),
      S.mapLevel ≤ l → l ≤ 3 →
      PagingWF st root →
      walk st root (pathTo v l) = some a →
      pathClear st root v S.mapLevel →
      st.cursor + 4096 * l ≤ 2 ^ 52 →
      ∃ st' fl, map_page S l a st v phys flags = some (st', fl) ∧
        st.cursor ≤ st'.cursor ∧ st'.cursor ≤ st.cursor + 4096 * (l - S.mapLevel) ∧
        PagingWF st' root ∧
        translate_addr st' 3 root v = some phys ∧
        (∀ w y, (∃ lvl0, S.mapLevel ≤ lvl0 ∧ lvl0 ≤ 3 ∧ table_index lvl0 w ≠ table_index lvl0 v) →
          translate_addr st 3 root w = some y → translate_addr st' 3 root w = some y) ∧
        (∀ w m, S.mapLevel ≤ m → pathClear st root w m → pathClear st' root w m) ∧
        (∃ t, walk st' root (pathTo v S.mapLevel) = some t ∧
          st'.tables t (table_index S.mapLevel v) =
            phys ||| (PRESENT ||| ACCESSED ||| (DIRTY ||| S.extraFlag ||| flags))) ∧
        (fl = true ↔ leafPresent st root S v) := by
  intro l
  induction l with
  | zero =>
    intro st a h0 h3 hWF hwalk hpc hcur
    have hm0 : S.mapLevel = 0 := by omega
    obtain ⟨st', fl, heq, hcur', hWF', htv, hpres, hpcp, hleaf, hflush⟩ :=
      map_page_leaf_spec S hS root v phys flags hv hphys hphys2 hflags1 hflags2 st a hWF
        (by rw [hm0]; exact hwalk)
    rw [hm0] at heq
    exact ⟨st', fl, heq, by omega, by omega, hWF', htv, hpres, hpcp, hleaf, hflush⟩
  | succ l ih =>
    intro st a h0 h3 hWF hwalk hpc hcur
    by_cases hm : l + 1 = S.mapLevel
    · obtain ⟨st', fl, heq, hcur', hWF', htv, hpres, hpcp, hleaf, hflush⟩ :=
        map_page_leaf_spec S hS root v phys flags hv hphys hphys2 hflags1 hflags2 st a hWF
          (by rw [← hm]; exact hwalk)
      refine ⟨st', fl, ?_, by omega, by omega, hWF', htv, hpres, hpcp, hleaf, hflush⟩
      show map_page S (l + 1) a st v phys flags = some (st', fl)
      simp only [map_page]
      rw [if_pos hm, hm]
      exact heq
    · have hlt : S.mapLevel < l + 1 := by omega
      have hl3 : l < 3 := by omega
      cases hp : isPresent (st.tables a (table_index (l + 1) v)) with
      | true =>
        have hnh : isHuge (st.tables a (table_index (l + 1) v)) = false := by
          have := hpc (l + 1) a hlt (by omega) hwalk
          revert this
          cases hih : isHuge (st.tables a (table_index (l + 1) v))
          · intro _; rfl
          · intro hcon; exact absurd ⟨hp, rfl⟩ hcon
        have hwn : walk st root (pathTo v l) =
            some (entryAddr (st.tables a (table_index (l + 1) v))) := by
          rw [pathTo_succ v l hl3, walk_append, hwalk]
          show walk st a [table_index (l + 1) v] = _
          rw [walk_step hp hnh]
          rfl
        obtain ⟨st', fl, heq, hcl, hcu, hWF', htv, hpres, hpcp, hleaf, hflush⟩ :=
          ih st (entryAddr (st.tables a (table_index (l + 1) v))) (by omega) (by omega)
            hWF hwn hpc (by omega)
        refine ⟨st', fl, ?_, by omega, by omega, hWF', htv, hpres, hpcp, hleaf, hflush⟩
        show map_page S (l + 1) a st v phys flags = some (st', fl)
        simp only [map_page]
        rw [if_neg hm, if_pos hlt]
        rw [hp, if_pos rfl]
        exact heq
      | false =>
        have halloc : allocate 4096 st.cursor = some (st.cursor, w64 (st.cursor + 4096)) := by
          unfold allocate
          rw [if_neg (by omega), if_neg (by simp [BASE_PAGE_SIZE]), if_neg hWF.1]
        have he2 : entry_set st.cursor WRITABLE =
            some (st.cursor ||| (PRESENT ||| ACCESSED ||| WRITABLE)) :=
          entry_set_eq st.cursor WRITABLE (by decide) hWF.2.1
        have hplen : (pathTo v (l + 1)).length ≤ 2 := by
          rw [pathTo_length]
          omega
        obtain ⟨hcursor1, hWF1, hold, hnew, htrans1, hpc1, hwalk1, hcells1⟩ :=
          sub_step_spec st root (pathTo v (l + 1)) a (table_index (l + 1) v) hWF hplen hwalk
            hp (by omega)
        have hwn : walk (subInstall st a (table_index (l + 1) v)) root (pathTo v l) =
            some st.cursor := by
          rw [pathTo_succ v l hl3]
          exact hwalk1
        obtain ⟨st', fl, heq, hcl, hcu, hWF', htv, hpres, hpcp, hleaf, hflush⟩ :=
          ih (subInstall st a (table_index (l + 1) v)) st.cursor (by omega) (by omega)
            hWF1 hwn (hpc1 v S.mapLevel hpc) (by rw [hcursor1]; omega)
        have he2a : entryAddr (st.cursor ||| (PRESENT ||| ACCESSED ||| WRITABLE)) = st.cursor :=
          entryAddr_lor st.cursor _ hWF.2.1 (by omega) flags_land_ADDR_MASK_const
        refine ⟨st', fl, ?_, ?_, ?_, hWF', htv, ?_, ?_, hleaf, ?_⟩
        · show map_page S (l + 1) a st v phys flags = some (st', fl)
          simp only [map_page]
          rw [if_neg hm, if_pos hlt]
          rw [hp, if_neg (by simp), halloc]
          show (match entry_set st.cursor WRITABLE with
            | none => none
            | some e2 => map_page S l (entryAddr e2)
                (MachState.mk (w64 (st.cursor + 4096))
                  (zeroTable (setCell st.tables a (table_index (l + 1) v) e2) (entryAddr e2)))
                v phys flags) = some (st', fl)
          rw [he2]
          show map_page S l (entryAddr (st.cursor ||| (PRESENT ||| ACCESSED ||| WRITABLE)))
              (MachState.mk (w64 (st.cursor + 4096))
                (zeroTable (setCell st.tables a (table_index (l + 1) v)
                  (st.cursor ||| (PRESENT ||| ACCESSED ||| WRITABLE)))
                  (entryAddr (st.cursor ||| (PRESENT ||| ACCESSED ||| WRITABLE)))))
              v phys flags = some (st', fl)
          rw [he2a]
          dsimp only [subInstall] at heq
          rw [he2a] at heq
          exact heq
        · rw [hcursor1] at hcl
          omega
        · rw [hcursor1] at hcu
          omega
        · intro w y hex hty
          exact hpres w y hex (htrans1 w y hty)
        · intro w m hmm hpcw
          exact hpcp w m hmm (hpc1 w m hpcw)
        · rw [hflush]
          have hdec := pathTo_decompose v S.mapLevel l (by omega) hl3
          obtain ⟨rest, hrest⟩ := hdec
          constructor
          · rintro ⟨t, hw, hpt⟩
            exfalso
            have hw1 : walk (subInstall st a (table_index (l + 1) v)) root (pathTo v (l + 1)) =
                some a := hold _ a (by rw [pathTo_length]; omega) hwalk
            rw [hrest, walk_append, hw1] at hw
            obtain ⟨hq1, hq2, hq3⟩ := walk_step_cond hw
            have ha_lt : a < st.cursor :=
              (hWF.2.2.1 (pathTo v (l + 1)) a (by rw [pathTo_length]; omega) hwalk).2
            have hcell : (subInstall st a (table_index (l + 1) v)).tables a
                (table_index (l + 1) v) = st.cursor ||| (PRESENT ||| ACCESSED ||| WRITABLE) := by
              rw [hcells1, if_neg (by omega), if_pos ⟨rfl, rfl⟩]
            rw [hcell, he2a] at hq3
            cases rest with
            | nil =>
              have ht : st.cursor = t := by injection hq3
              rw [← ht] at hpt
              rw [hcells1, if_pos rfl] at hpt
              exact absurd hpt (by decide)
            | cons r rs =>
              obtain ⟨hz, -, -⟩ := walk_step_cond hq3
              rw [hcells1, if_pos rfl] at hz
              exact absurd hz (by decide)
          · rintro ⟨t, hw, hpt⟩
            exfalso
            rw [hrest, walk_append, hwalk] at hw
            obtain ⟨hq1, -, -⟩ := walk_step_cond hw
            rw [hp] at hq1
            exact absurd hq1 (by simp)

/-! ## Index arithmetic: distinct aligned canonical pages differ in an index -/

/-- `table_index` as division and remainder. -/
theorem table_index_eq (lvl v : Nat) :
    table_index lvl v = v / 2 ^ (12 + 9 * lvl) % 512 := by
  show v >>> 12 >>> (9 * lvl) &&& 0x1FF = _
  rw [Nat.shiftRight_eq_div_pow, Nat.shiftRight_eq_div_pow, Nat.div_div_eq_div_mul, ← pow_add]
  exact Nat.and_pow_two_sub_one_eq_mod _ 9

/-- A canonical (valid) address lies in the low or the high half. -/
theorem valid_canonical {v : Nat} (h : is_valid_address v = true) :
    v < 2 ^ 47 ∨ 2 ^ 64 - 2 ^ 47 ≤ v := by
  simp only [is_valid_address, Bool.or_eq_true, decide_eq_true_eq] at h
  omega

/-- A 4 KiB-aligned canonical 64-bit address is determined by its four
page-table indices (base-512 digits of bits 12–47 plus sign extension). -/
theorem eq_of_digits_base (p q : Nat)
    (hp : p % 4096 = 0) (hq : q % 4096 = 0)
    (hpc : p < 2 ^ 47 ∨ (2 ^ 64 - 2 ^ 47 ≤ p ∧ p < 2 ^ 64))
    (hqc : q < 2 ^ 47 ∨ (2 ^ 64 - 2 ^ 47 ≤ q ∧ q < 2 ^ 64))
    (h0 : p / 2 ^ 12 % 512 = q / 2 ^ 12 % 512)
    (h1 : p / 2 ^ 21 % 512 = q / 2 ^ 21 % 512)
    (h2 : p / 2 ^ 30 % 512 = q / 2 ^ 30 % 512)
    (h3 : p / 2 ^ 39 % 512 = q / 2 ^ 39 % 512) : p = q := by omega

/-- A 2 MiB-aligned canonical 64-bit address is determined by its three
upper page-table indices. -/
theorem eq_of_digits_large (p q : Nat)
    (hp : p % 2097152 = 0) (hq : q % 2097152 = 0)
    (hpc : p < 2 ^ 47 ∨ (2 ^ 64 - 2 ^ 47 ≤ p ∧ p < 2 ^ 64))
    (hqc : q < 2 ^ 47 ∨ (2 ^ 64 - 2 ^ 47 ≤ q ∧ q < 2 ^ 64))
    (h1 : p / 2 ^ 21 % 512 = q / 2 ^ 21 % 512)
    (h2 : p / 2 ^ 30 % 512 = q / 2 ^ 30 % 512)
    (h3 : p / 2 ^ 39 % 512 = q / 2 ^ 39 % 512) : p = q := by omega

/-- Two distinct `S`-aligned canonical pages differ in the table index of
some level between `S`'s map level and the root. -/
theorem table_index_ne_of_ne (S : PageSizeSpec) (hS : S = BasePageSize ∨ S = LargePageSize)
    (p q : Nat) (hp : p % S.size = 0) (hq : q % S.size = 0)
    (hpc : is_valid_address p = true) (hqc : is_valid_address q = true)
    (hp64 : p < 2 ^ 64) (hq64 : q < 2 ^ 64) (hne : p ≠ q) :
    ∃ lvl, S.mapLevel ≤ lvl ∧ lvl ≤ 3 ∧ table_index lvl p ≠ table_index lvl q := by
  by_contra hcon
  push_neg at hcon
  have hc1 := valid_canonical hpc
  have hc2 := valid_canonical hqc
  rcases hS with h | h <;> subst h
  · have h0 := hcon 0 (by decide) (by decide)
    have h1 := hcon 1 (by decide) (by decide)
    have h2 := hcon 2 (by decide) (by decide)
    have h3 := hcon 3 (by decide) (by decide)
    rw [table_index_eq, table_index_eq] at h0 h1 h2 h3
    norm_num at h0 h1 h2 h3
    exact hne (eq_of_digits_base p q hp hq (by omega) (by omega) h0 h1 h2 h3)
  · have h1 := hcon 1 (by decide) (by decide)
    have h2 := hcon 2 (by decide) (by decide)
    have h3 := hcon 3 (by decide) (by decide)
    rw [table_index_eq, table_index_eq] at h1 h2 h3
    norm_num at h1 h2 h3
    exact hne (eq_of_digits_large p q hp hq (by omega) (by omega) h1 h2 h3)

/-! ## The fresh all-zero state -/

/-- In the all-zero state no walk leaves the root. -/
theorem walk_initState (c root : Nat) :
    ∀ (p : List Nat) (a : Nat), walk (initState c) root p = some a → p = [] ∧ a = root := by
  intro p a h
  cases p with
  | nil => exact ⟨rfl, (Option.some_injective _ h).symm⟩
  | cons i q =>
    have h0 : (initState c).tables root i = 0 := rfl
    have hz : walk (initState c) root (i :: q) = none := by
      simp only [walk, h0]
      rw [if_neg (by decide)]
    rw [hz] at h
    cases h

/-- The all-zero state with a nonzero page-aligned cursor above the
(page-aligned) root table is well-formed. -/
theorem PagingWF_initState (c root : Nat) (hc : c ≠ 0) (hcal : c % 4096 = 0)
    (hroot : root % 4096 = 0) (hrc : root < c) : PagingWF (initState c) root := by
  refine ⟨hc, hcal, ?_, ?_⟩
  · intro p a _ h
    obtain ⟨rfl, rfl⟩ := walk_initState c root p a h
    exact ⟨hroot, hrc⟩
  · intro p q a _ _ hp hq
    obtain ⟨rfl, -⟩ := walk_initState c root p a hp
    obtain ⟨rfl, -⟩ := walk_initState c root q a hq
    rfl

/-- In the all-zero state every path is clear of huge entries. -/
theorem pathClear_initState (c root v m : Nat) : pathClear (initState c) root v m := by
  intro lvl a _ _ hw hcontra
  have h0 : (initState c).tables a (table_index lvl v) = 0 := rfl
  rw [h0] at hcontra
  exact absurd hcontra.1 (by decide)

/-- In the all-zero state no leaf entry is present. -/
theorem leafPresent_initState (c root : Nat) (S : PageSizeSpec) (v : Nat) :
    ¬ leafPresent (initState c) root S v := by
  rintro ⟨t, hw, hpt⟩
  have h0 : (initState c).tables t (table_index S.mapLevel v) = 0 := rfl
  rw [h0] at hpt
  exact absurd hpt (by decide)

/-! ## Evaluating `get_page_range` -/

/-- Aligned values are fixed by `align_down`. -/
theorem align_down_eq {x a : Nat} (h : x % a = 0) : align_down x a = x := by
  unfold align_down
  omega

/-- A one-element page list. -/
theorem pageList_one (v s : Nat) : pageList v 1 s = [v] := by
  simp [pageList, List.range_succ]

/-- Indexing a page list. -/
theorem pageList_getElem (first size n i : Nat) (h : i < n) :
    (pageList first n size)[i]? = some (first + i * size) := by
  simp [pageList, List.getElem?_map, List.getElem?_range, h]

/-- Length of a page list. -/
theorem pageList_length (first size n : Nat) : (pageList first n size).length = n := by
  simp [pageList]

/-- Members of a page list. -/
theorem pageList_mem (first size n p : Nat) (h : p ∈ pageList first n size) :
    ∃ i, i < n ∧ p = first + i * size := by
  simp only [pageList, List.mem_map, List.mem_range] at h
  obtain ⟨i, hi, he⟩ := h
  exact ⟨i, hi, he.symm⟩

/-- `get_page_range` on an `S`-aligned canonical base address whose range
stays canonical and does not wrap yields the arithmetic page list. -/
theorem get_page_range_eval (S : PageSizeSpec) (hSpos : 0 < S.size) (v count : Nat)
    (hv : v % S.size = 0) (hcount : 1 ≤ count) (hcount64 : count ≤ 2 ^ 64)
    (hcanonV : is_valid_address v = true)
    (hcanonL : is_valid_address (v + (count - 1) * S.size) = true)
    (hnov : v + count * S.size ≤ 2 ^ 64) :
    get_page_range S v count = some (pageList v count S.size) := by
  have hstep : (count - 1) * S.size + S.size = count * S.size := by
    calc (count - 1) * S.size + S.size = (count - 1 + 1) * S.size := (Nat.succ_mul _ _).symm
    _ = count * S.size := by rw [show count - 1 + 1 = count by omega]
  have hlt : v + (count - 1) * S.size < 2 ^ 64 := by omega
  have h1 : (count + (2 ^ 64 - 1)) % 2 ^ 64 = count - 1 := by omega
  have h2 : w64 ((count - 1) * S.size) = (count - 1) * S.size := w64_eq_of_lt (by omega)
  have h3 : w64 (v + (count - 1) * S.size) = v + (count - 1) * S.size := w64_eq_of_lt hlt
  have h4 : (v + (count - 1) * S.size) % S.size = 0 := by
    rw [Nat.add_mul_mod_self_right]
    exact hv
  have h7 : (v + (count - 1) * S.size - v) / S.size + 1 = count := by
    rw [Nat.add_sub_self_left, Nat.mul_div_left _ hSpos]
    omega
  simp only [get_page_range, hcanonV, h1, h2, h3, hcanonL, align_down_eq h4, align_down_eq hv,
    if_true]
  rw [if_pos (Nat.le_add_right _ _), h7]

/-! ## `map_pages` over a list of pages -/

/-- `map_pages` over a list of `S`-aligned pages that pairwise differ in
some table index: each page ends up translating to its physical frame
(the physical address advancing by `S.size` per page), unrelated
translations and path-clearness are preserved, and well-formedness is
maintained. -/
theorem map_pages_spec (S : PageSizeSpec) (hS : S = BasePageSize ∨ S = LargePageSize)
    (root flags : Nat)
    (hflags1 : flags &&& ADDR_MASK = 0) (hflags2 : isHuge flags = false) :
    ∀ (ps : List Nat) (st : MachState) (phys : Nat),
      PagingWF st root →
      (∀ p ∈ ps, p % S.size = 0) →
      (∀ p ∈ ps, pathClear st root p S.mapLevel) →
      (∀ (i j p q : Nat), ps[i]? = some p → ps[j]? = some q → i ≠ j →
        ∃ lvl, S.mapLevel ≤ lvl ∧ lvl ≤ 3 ∧ table_index lvl p ≠ table_index lvl q) →
      phys % S.size = 0 →
      phys + ps.length * S.size ≤ 2 ^ 52 →
      st.cursor + 4096 * (3 * ps.length) ≤ 2 ^ 52 →
      ∃ st' fls, map_pages S root ps st phys flags = some (st', fls) ∧
        st.cursor ≤ st'.cursor ∧ st'.cursor ≤ st.cursor + 4096 * (3 * ps.length) ∧
        PagingWF st' root ∧
        (∀ (i p : Nat), ps[i]? = some p →
          translate_addr st' 3 root p = some (phys + i * S.size)) ∧
        (∀ w y, (∀ p ∈ ps, ∃ lvl, S.mapLevel ≤ lvl ∧ lvl ≤ 3 ∧
            table_index lvl w ≠ table_index lvl p) →
          translate_addr st 3 root w = some y → translate_addr st' 3 root w = some y) ∧
        (∀ w m, S.mapLevel ≤ m → pathClear st root w m → pathClear st' root w m) := by
  intro ps
  induction ps with
  | nil =>
    intro st phys hWF _ _ _ _ _ _
    refine ⟨st, [], rfl, Nat.le_refl _, by simp, hWF, ?_, fun w y _ h => h, fun w m _ h => h⟩
    intro i p h
    simp at h
  | cons page rest ih =>
    intro st phys hWF halign hclear hpair hpalign hpbound hcur
    have hSml : S.mapLevel ≤ 3 := by rcases hS with h | h <;> subst h <;> decide
    have hS4096 : 4096 ≤ S.size := by rcases hS with h | h <;> subst h <;> decide
    rw [List.length_cons, Nat.succ_mul] at hpbound
    have hphyslt : phys < 2 ^ 52 := by omega
    obtain ⟨st1, fl1, heq1, hc1l, hc1u, hWF1, htv1, hpres1, hpcp1, hleaf1, hflush1⟩ :=
      map_page_spec S hS root page phys flags (halign page (by simp)) hpalign hphyslt
        hflags1 hflags2 3 st root hSml (Nat.le_refl 3) hWF
        (by rw [pathTo_three]; rfl) (hclear page (by simp))
        (by rw [List.length_cons] at hcur; omega)
    have hphysS : w64 (phys + S.size) = phys + S.size := w64_eq_of_lt (by omega)
    obtain ⟨st2, fls, heq2, hc2l, hc2u, hWF2, htr2, hpres2, hpcp2⟩ :=
      ih st1 (phys + S.size) hWF1
        (fun q hq => halign q (by simp [hq]))
        (fun q hq => hpcp1 q S.mapLevel (Nat.le_refl _) (hclear q (by simp [hq])))
        (fun i j a b hi hj hij =>
          hpair (i + 1) (j + 1) a b (by simpa using hi) (by simpa using hj) (by omega))
        (by rw [Nat.add_mod_right]; exact hpalign)
        (by omega)
        (by rw [List.length_cons] at hcur; omega)
    refine ⟨st2, fl1 :: fls, ?_, by omega, by rw [List.length_cons]; omega, hWF2, ?_, ?_, ?_⟩
    · show map_pages S root (page :: rest) st phys flags = some (st2, fl1 :: fls)
      simp only [map_pages, heq1, hphysS, heq2]
    · intro i a hia
      match i, hia with
      | 0, hia =>
        have ha : page = a := by simpa using hia
        have hmem : ∀ q ∈ rest, ∃ lvl, S.mapLevel ≤ lvl ∧ lvl ≤ 3 ∧
            table_index lvl page ≠ table_index lvl q := by
          intro q hq
          rw [List.mem_iff_getElem?] at hq
          obtain ⟨j, hj⟩ := hq
          exact hpair 0 (j + 1) page q (by simp) (by simpa using hj) (by omega)
        have h2 := hpres2 page phys hmem htv1
        rw [← ha]
        simpa using h2
      | n + 1, hia =>
        have hn : rest[n]? = some a := by simpa using hia
        have := htr2 n a hn
        have harith : phys + S.size + n * S.size = phys + (n + 1) * S.size := by
          rw [Nat.succ_mul]
          omega
        rwa [harith] at this
    · intro w y hdp hty
      refine hpres2 w y (fun q hq => hdp q (by simp [hq])) ?_
      exact hpres1 w y (hdp page (by simp)) hty
    · intro w m hm hp
      exact hpcp2 w m hm (hpcp1 w m hm hp)

/-! ## Claim C1: `map` translates every page of the range -/

/-- C1: for either page size `S`, any `count ≥ 1`, an `S`-aligned
canonical virtual base `V` (all pages canonical, count not wrapping) and
an `S`-aligned physical base `P`, a `map` call from a well-formed state
with clear paths and enough allocator headroom succeeds — allocating
intermediate tables on demand — and afterwards virtual page `V + i*S`
translates to physical frame `P + i*S` for every `i < count`. -/
theorem map_range_translates (S : PageSizeSpec) (hS : S = BasePageSize ∨ S = LargePageSize)
    (root V P count flags : Nat) (st : MachState)
    (hWF : PagingWF st root) (hcount : 1 ≤ count)
    (hV : V % S.size = 0) (hP : P % S.size = 0)
    (hcanon : ∀ i < count, is_valid_address (V + i * S.size) = true)
    (hnov : V + count * S.size ≤ 2 ^ 64)
    (hP2 : P + count * S.size ≤ 2 ^ 52)
    (hflags1 : flags &&& ADDR_MASK = 0) (hflags2 : isHuge flags = false)
    (hclear : ∀ i < count, pathClear st root (V + i * S.size) S.mapLevel)
    (hcur : st.cursor + 4096 * (3 * count) ≤ 2 ^ 52) :
    ∃ st' fls, map S root V P count flags st = some (st', fls) ∧
      ∀ i < count, translate_addr st' 3 root (V + i * S.size) = some (P + i * S.size) := by
  have hS4096 : 4096 ≤ S.size := by rcases hS with h | h <;> subst h <;> decide
  have hSpos : 0 < S.size := by omega
  have hcount64 : count ≤ 2 ^ 64 := by
    have h1 : count * 1 ≤ count * S.size := Nat.mul_le_mul_left count hSpos
    rw [Nat.mul_one] at h1
    omega
  have hmul : ∀ i, i < count → i * S.size + S.size ≤ count * S.size := by
    intro i hi
    have h1 : (i + 1) * S.size ≤ count * S.size := Nat.mul_le_mul_right S.size hi
    rwa [Nat.succ_mul] at h1
  have hcanonV : is_valid_address V = true := by
    have := hcanon 0 (by omega)
    simpa using this
  have hcanonL : is_valid_address (V + (count - 1) * S.size) = true :=
    hcanon (count - 1) (by omega)
  have hrange : get_page_range S V count = some (pageList V count S.size) :=
    get_page_range_eval S hSpos V count hV hcount hcount64 hcanonV hcanonL hnov
  have hlt64 : ∀ i, i < count → V + i * S.size < 2 ^ 64 := by
    intro i hi
    have := hmul i hi
    omega
  obtain ⟨st', fls, heq, -, -, -, htr, -, -⟩ :=
    map_pages_spec S hS root flags hflags1 hflags2 (pageList V count S.size) st P hWF
      (by
        intro p hp
        obtain ⟨i, -, rfl⟩ := pageList_mem V S.size count p hp
        rw [Nat.add_mul_mod_self_right]
        exact hV)
      (by
        intro p hp
        obtain ⟨i, hi, rfl⟩ := pageList_mem V S.size count p hp
        exact hclear i hi)
      (by
        intro i j p q hi hj hij
        have hilen : i < count := by
          have := (List.getElem?_eq_some.mp hi).1
          rwa [pageList_length] at this
        have hjlen : j < count := by
          have := (List.getElem?_eq_some.mp hj).1
          rwa [pageList_length] at this
        rw [pageList_getElem V S.size count i hilen] at hi
        rw [pageList_getElem V S.size count j hjlen] at hj
        have hpi : p = V + i * S.size := (Option.some_injective _ hi).symm
        have hqj : q = V + j * S.size := (Option.some_injective _ hj).symm
        subst hpi
        subst hqj
        refine table_index_ne_of_ne S hS _ _ ?_ ?_ (hcanon i hilen) (hcanon j hjlen)
          (hlt64 i hilen) (hlt64 j hjlen) ?_
        · rw [Nat.add_mul_mod_self_right]
          exact hV
        · rw [Nat.add_mul_mod_self_right]
          exact hV
        · intro hcon
          have : i * S.size = j * S.size := by omega
          exact hij (Nat.eq_of_mul_eq_mul_right hSpos this))
      hP
      (by rw [pageList_length]; exact hP2)
      (by rw [pageList_length]; exact hcur)
  refine ⟨st', fls, ?_, ?_⟩
  · simp only [map, hrange]
    exact heq
  · intro i hi
    exact htr i (V + i * S.size) (pageList_getElem V S.size count i hi)

/-- C1 witness: mapping two 4 KiB pages at virtual address 0 to physical
address `0x3000` from the fresh state with the root table at `0x1000`
and the allocator at `0x2000` succeeds, and both pages translate. -/
theorem map_range_translates_witness :
    ∃ st' fls, map BasePageSize 0x1000 0 0x3000 2 0 (initState 0x2000) = some (st', fls) ∧
      ∀ i < 2, translate_addr st' 3 0x1000 (0 + i * BasePageSize.size) =
        some (0x3000 + i * BasePageSize.size) :=
  map_range_translates BasePageSize (Or.inl rfl) 0x1000 0 0x3000 2 0 (initState 0x2000)
    (PagingWF_initState 0x2000 0x1000 (by decide) (by decide) (by decide) (by decide))
    (by decide) (by decide) (by decide) (by decide) (by decide) (by decide)
    (by decide) (by decide)
    (fun i _ => pathClear_initState 0x2000 0x1000 (0 + i * BasePageSize.size)
      BasePageSize.mapLevel)
    (by decide)

/-! ## Claim C6: flag bits of the installed leaf entry -/

/-- The two page sizes are distinct. -/
theorem base_ne_large : BasePageSize ≠ LargePageSize := by
  intro h
  have h2 := congrArg PageSizeSpec.size h
  norm_num [BasePageSize, LargePageSize] at h2

/-- A bit set in the right operand of a bitwise or is set in the result. -/
theorem testBit_lor_right {a : Nat} (b : Nat) (j : Nat) (h : a.testBit j = true) :
    (b ||| a).testBit j = true := by
  rw [Nat.testBit_lor, h, Bool.or_true]

/-- C6 (amended): a successful single-page `map` whose caller flags do
not contain `HUGE_PAGE` installs a terminal entry with the present,
accessed and dirty bits set, and with the huge-page bit set if and only
if the chosen size is the 2 MiB size.  (The amendment restricts the
caller's flags: `PageTableEntry::set` ors the caller-supplied flags into
the entry verbatim, so a caller passing `HUGE_PAGE` would set the huge
bit even for a 4 KiB page — see the counterexample.) -/
theorem map_leaf_entry_bits (S : PageSizeSpec) (hS : S = BasePageSize ∨ S = LargePageSize)
    (root v phys flags : Nat) (st : MachState)
    (hWF : PagingWF st root) (hv : v % S.size = 0) (hcanon : is_valid_address v = true)
    (hphys : phys % S.size = 0) (hphys2 : phys < 2 ^ 52)
    (hnov : v + S.size ≤ 2 ^ 64)
    (hflags1 : flags &&& ADDR_MASK = 0) (hflags2 : isHuge flags = false)
    (hclear : pathClear st root v S.mapLevel)
    (hcur : st.cursor + 4096 * 3 ≤ 2 ^ 52) :
    ∃ st' fls t, map S root v phys 1 flags st = some (st', fls) ∧
      walk st' root (pathTo v S.mapLevel) = some t ∧
      isPresent (st'.tables t (table_index S.mapLevel v)) = true ∧
      Nat.testBit (st'.tables t (table_index S.mapLevel v)) 5 = true ∧
      Nat.testBit (st'.tables t (table_index S.mapLevel v)) 6 = true ∧
      (isHuge (st'.tables t (table_index S.mapLevel v)) = true ↔ S = LargePageSize) := by
  have hS4096 : 4096 ≤ S.size := by rcases hS with h | h <;> subst h <;> decide
  have hSpos : 0 < S.size := by omega
  have hSml : S.mapLevel ≤ 3 := by rcases hS with h | h <;> subst h <;> decide
  have hph4096 : phys % 4096 = 0 := by
    rcases hS with h | h <;> rw [h] at hphys
    · exact hphys
    · exact mod_pow_of_mod_pow (a := 21) (b := 12) hphys (by omega)
  have hrange : get_page_range S v 1 = some (pageList v 1 S.size) :=
    get_page_range_eval S hSpos v 1 hv (Nat.le_refl 1) (by norm_num) hcanon
      (by simpa using hcanon) (by rw [Nat.one_mul]; exact hnov)
  rw [pageList_one] at hrange
  obtain ⟨st1, fl1, heq1, -, -, -, -, -, -, hleaf1, -⟩ :=
    map_page_spec S hS root v phys flags hv hphys hphys2 hflags1 hflags2 3 st root hSml
      (Nat.le_refl 3) hWF (by rw [pathTo_three]; rfl) hclear (by omega)
  obtain ⟨t, hw, hcell⟩ := hleaf1
  refine ⟨st1, [fl1], t, ?_, hw, ?_, ?_, ?_, ?_⟩
  · simp only [map, hrange, map_pages, heq1]
  · rw [hcell]
    exact isPresent_install phys _
  · rw [hcell]
    refine testBit_lor_right phys 5 ?_
    simp only [Nat.testBit_lor]
    rw [show Nat.testBit ACCESSED 5 = true from by decide]
    simp
  · rw [hcell]
    refine testBit_lor_right phys 6 ?_
    simp only [Nat.testBit_lor]
    rw [show Nat.testBit DIRTY 6 = true from by decide]
    simp
  · rw [hcell, isHuge_install phys _ hph4096]
    rw [isHuge_lor, isHuge_lor, hflags2]
    rw [show isHuge DIRTY = false from by decide]
    rcases hS with h | h <;> subst h
    · rw [show isHuge BasePageSize.extraFlag = false from by decide]
      simp only [Bool.or_false, Bool.false_or]
      constructor
      · intro hcon
        cases hcon
      · intro hcon
        exact absurd hcon base_ne_large
    · rw [show isHuge LargePageSize.extraFlag = true from by decide]
      simp

/-- C6 witness: a single 4 KiB map of virtual 0 to physical `0x3000`
from the fresh state installs a present/accessed/dirty, non-huge leaf. -/
theorem map_leaf_entry_bits_witness :
    ∃ st' fls t, map BasePageSize 0x1000 0 0x3000 1 0 (initState 0x2000) = some (st', fls) ∧
      walk st' 0x1000 (pathTo 0 BasePageSize.mapLevel) = some t ∧
      isPresent (st'.tables t (table_index BasePageSize.mapLevel 0)) = true ∧
      Nat.testBit (st'.tables t (table_index BasePageSize.mapLevel 0)) 5 = true ∧
      Nat.testBit (st'.tables t (table_index BasePageSize.mapLevel 0)) 6 = true ∧
      (isHuge (st'.tables t (table_index BasePageSize.mapLevel 0)) = true ↔
        BasePageSize = LargePageSize) :=
  map_leaf_entry_bits BasePageSize (Or.inl rfl) 0x1000 0 0x3000 0 (initState 0x2000)
    (PagingWF_initState 0x2000 0x1000 (by decide) (by decide) (by decide) (by decide))
    (by decide) (by decide) (by decide) (by decide) (by decide) (by decide) (by decide)
    (pathClear_initState 0x2000 0x1000 0 BasePageSize.mapLevel)
    (by decide)

/-! ## Claim C7: remapping flushes exactly once and overwrites -/

/-- C7: mapping the same (previously unmapped, clear-path) virtual page
twice with two different physical addresses: the first `map` reports no
TLB flush (`[false]`, the leaf entry was not present), the second —
which finds the leaf entry installed by the first — reports exactly one
flush (`[true]`) and takes effect: the page translates to the second
physical address afterwards. -/
theorem remap_overwrite_flush (S : PageSizeSpec) (hS : S = BasePageSize ∨ S = LargePageSize)
    (root v p1 p2 flags : Nat) (st : MachState)
    (hWF : PagingWF st root) (hv : v % S.size = 0) (hcanon : is_valid_address v = true)
    (hp1 : p1 % S.size = 0) (hp1b : p1 < 2 ^ 52)
    (hp2 : p2 % S.size = 0) (hp2b : p2 < 2 ^ 52)
    (hnov : v + S.size ≤ 2 ^ 64)
    (hflags1 : flags &&& ADDR_MASK = 0) (hflags2 : isHuge flags = false)
    (hnp : ¬ leafPresent st root S v)
    (hclear : pathClear st root v S.mapLevel)
    (hcur : st.cursor + 4096 * 6 ≤ 2 ^ 52) :
    ∃ st1 st2, map S root v p1 1 flags st = some (st1, [false]) ∧
      map S root v p2 1 flags st1 = some (st2, [true]) ∧
      translate_addr st2 3 root v = some p2 := by
  have hS4096 : 4096 ≤ S.size := by rcases hS with h | h <;> subst h <;> decide
  have hSpos : 0 < S.size := by omega
  have hSml : S.mapLevel ≤ 3 := by rcases hS with h | h <;> subst h <;> decide
  have hrange : get_page_range S v 1 = some (pageList v 1 S.size) :=
    get_page_range_eval S hSpos v 1 hv (Nat.le_refl 1) (by norm_num) hcanon
      (by simpa using hcanon) (by rw [Nat.one_mul]; exact hnov)
  rw [pageList_one] at hrange
  obtain ⟨st1, fl1, heq1, hc1l, hc1u, hWF1, -, -, hpcp1, hleaf1, hflush1⟩ :=
    map_page_spec S hS root v p1 flags hv hp1 hp1b hflags1 hflags2 3 st root hSml
      (Nat.le_refl 3) hWF (by rw [pathTo_three]; rfl) hclear (by omega)
  have hfl1 : fl1 = false := by
    cases fl1 with
    | false => rfl
    | true => exact absurd (hflush1.mp rfl) hnp
  subst hfl1
  have hlp1 : leafPresent st1 root S v := by
    obtain ⟨t, hwt, hcell⟩ := hleaf1
    refine ⟨t, hwt, ?_⟩
    rw [hcell]
    exact isPresent_install p1 _
  obtain ⟨st2, fl2, heq2, -, -, -, htv2, -, -, -, hflush2⟩ :=
    map_page_spec S hS root v p2 flags hv hp2 hp2b hflags1 hflags2 3 st1 root hSml
      (Nat.le_refl 3) hWF1 (by rw [pathTo_three]; rfl)
      (hpcp1 v S.mapLevel (Nat.le_refl _) hclear) (by omega)
  have hfl2 : fl2 = true := hflush2.mpr hlp1
  subst hfl2
  refine ⟨st1, st2, ?_, ?_, htv2⟩
  · simp only [map, hrange, map_pages, heq1]
  · simp only [map, hrange, map_pages, heq2]

/-- C7 witness: from the fresh state, mapping virtual 0 first to
`0x3000` and then to `0x5000` yields flush indicators `[false]` then
`[true]`, and the final translation is `0x5000`. -/
theorem remap_overwrite_flush_witness :
    ∃ st1 st2, map BasePageSize 0x1000 0 0x3000 1 0 (initState 0x2000) = some (st1, [false]) ∧
      map BasePageSize 0x1000 0 0x5000 1 0 st1 = some (st2, [true]) ∧
      translate_addr st2 3 0x1000 0 = some 0x5000 :=
  remap_overwrite_flush BasePageSize (Or.inl rfl) 0x1000 0 0x3000 0x5000 0 (initState 0x2000)
    (PagingWF_initState 0x2000 0x1000 (by decide) (by decide) (by decide) (by decide))
    (by decide) (by decide) (by decide) (by decide) (by decide) (by decide) (by decide)
    (by decide) (by decide)
    (leafPresent_initState 0x2000 0x1000 BasePageSize 0)
    (pathClear_initState 0x2000 0x1000 0 BasePageSize.mapLevel)
    (by decide)
